import Mathlib

/-!
Verification of the Black-Scholes IV/Greeks solver and the batched
market-data fetcher of the `one-lot-ai` repository.

The pricing code (`backend/services/greeks.py`) is embedded over the real
numbers: Python's `math.exp`, `math.log`, `math.sqrt` become `Real.exp`,
`Real.log`, `Real.sqrt`, and `math.erf` is embedded through its defining
property, so that `_norm_cdf` becomes the Gaussian cumulative distribution
function expressed as an integral.  Loops with a fixed iteration count
(`for i in range(max_iterations)`) become fuel-indexed recursions.
A second, fallible embedding (`Except`-valued, suffix `E`) additionally
tracks the exceptions CPython can raise (`OverflowError` from `math.exp`,
`ValueError` from `math.log`/`math.sqrt`, `ZeroDivisionError` from `/`),
mirroring the `try`/`except` structure of the source.

The fetcher (`backend/services/angel_one.py`) and the strike-window
selection (`backend/services/instrument_service.py`) are embedded as
executable functions over lists, with the upstream API abstracted as a
response oracle indexed by batch number and attempt number.
-/

open scoped Real

/-- RBI repo rate constant `RISK_FREE_RATE = 0.0525` from `greeks.py`. -/
def RISK_FREE_RATE : ℝ := 0.0525

/-- Option side: the source distinguishes `option_type == "CE"` (call) from
everything else (put, passed as `"PE"`). -/
inductive OptionType where
  | CE
  | PE
deriving DecidableEq, Repr

/-- Embedding of `_norm_pdf`: `math.exp(-0.5 * x * x) / math.sqrt(2.0 * math.pi)`. -/
noncomputable def norm_pdf (x : ℝ) : ℝ :=
  Real.exp (-0.5 * x * x) / Real.sqrt (2 * Real.pi)

/-- Embedding of `_norm_cdf`: the source computes `0.5 * (1 + erf(x / sqrt 2))`;
by the defining property of `math.erf` this is the standard normal cumulative
distribution function, i.e. the integral of `_norm_pdf` over `(-∞, x]`. -/
noncomputable def norm_cdf (x : ℝ) : ℝ :=
  ∫ t in Set.Iic x, norm_pdf t

/-- Embedding of `_d1`: `(log(S/K) + (r + 0.5*sigma*sigma)*T) / (sigma*sqrt T)`. -/
noncomputable def d1 (S K T r sigma : ℝ) : ℝ :=
  (Real.log (S / K) + (r + 0.5 * sigma * sigma) * T) / (sigma * Real.sqrt T)

/-- Embedding of `bs_price(S, K, T, r, sigma, option_type)`. -/
noncomputable def bs_price (S K T r sigma : ℝ) (option_type : OptionType) : ℝ :=
  if T ≤ 0 ∨ sigma ≤ 0 ∨ S ≤ 0 ∨ K ≤ 0 then 0
  else
    let d1v := d1 S K T r sigma
    let d2v := d1v - sigma * Real.sqrt T
    match option_type with
    | .CE => S * norm_cdf d1v - K * Real.exp (-r * T) * norm_cdf d2v
    | .PE => K * Real.exp (-r * T) * norm_cdf (-d2v) - S * norm_cdf (-d1v)

/-- Embedding of `_bisection_iv(option_price, S, K, T, r, option_type)` with the
source defaults `low=0.001, high=5.0, max_iterations=100, tolerance=1e-6`; the
`for` loop over `max_iterations` becomes recursion on a fuel argument. -/
noncomputable def bisection_iv (option_price S K T r : ℝ) (option_type : OptionType) :
    ℕ → ℝ → ℝ → ℝ
  | 0, low, high => (low + high) / 2
  | n + 1, low, high =>
    let mid := (low + high) / 2
    let price := bs_price S K T r mid option_type
    if |price - option_price| < 1e-6 then mid
    else if price > option_price then bisection_iv option_price S K T r option_type n low mid
    else bisection_iv option_price S K T r option_type n mid high

/-- The Newton-Raphson loop of `compute_iv` (lines 101-128 of `greeks.py`):
fuel is the remaining iteration count; exhausting the fuel (the `for` loop
ending) or the `vega < 1e-10` early `break` fall through to `_bisection_iv`.
In this real-number embedding the arithmetic is total, so the
`except (ValueError, OverflowError, ZeroDivisionError)` branch is unreachable;
the fallible embedding `newton_iterE` below accounts for it. -/
noncomputable def newton_iter (option_price S K T r : ℝ) (option_type : OptionType) :
    ℕ → ℝ → ℝ
  | 0, _ => bisection_iv option_price S K T r option_type 100 0.001 5.0
  | n + 1, sigma =>
    let price := bs_price S K T r sigma option_type
    let diff := price - option_price
    if |diff| < 1e-6 then sigma
    else
      let d1v := d1 S K T r sigma
      let vega := S * norm_pdf d1v * Real.sqrt T
      if vega < 1e-10 then bisection_iv option_price S K T r option_type 100 0.001 5.0
      else
        let sigma1 := sigma - diff / vega
        let sigma2 := if sigma1 ≤ 0.001 then 0.001 else if sigma1 > 5.0 then 5.0 else sigma1
        newton_iter option_price S K T r option_type n sigma2

/-- The intrinsic-value floor computed at lines 89-92 of `compute_iv`:
`max(S - K*exp(-r*T), 0)` for calls, `max(K*exp(-r*T) - S, 0)` for puts. -/
noncomputable def intrinsic_floor (S K T r : ℝ) (option_type : OptionType) : ℝ :=
  match option_type with
  | .CE => max (S - K * Real.exp (-r * T)) 0
  | .PE => max (K * Real.exp (-r * T) - S) 0

/-- Embedding of `compute_iv(option_price, S, K, T, r, option_type)` with the
source defaults `max_iterations=100, tolerance=1e-6`. -/
noncomputable def compute_iv (option_price S K T r : ℝ) (option_type : OptionType) : ℝ :=
  if option_price ≤ 0 ∨ S ≤ 0 ∨ K ≤ 0 ∨ T ≤ 0 then 0
  else if option_price < intrinsic_floor S K T r option_type then 0
  else
    let sigma0 := Real.sqrt (2 * Real.pi / T) * (option_price / S)
    let sigma0c := max (min sigma0 5.0) 0.01
    newton_iter option_price S K T r option_type 100 sigma0c

/-- Python's banker's rounding of a real to the nearest integer, ties to even:
`pyround x` agrees with `round x` away from ties and rounds half-integers to
the even neighbour (`2 * round (x / 2)`). -/
noncomputable def pyround (x : ℝ) : ℤ :=
  if Int.fract x = 1 / 2 then 2 * round (x / 2) else round x

/-- Embedding of Python's `round(x, ndigits)` used at lines 214-218. -/
noncomputable def round_to (ndigits : ℕ) (x : ℝ) : ℝ :=
  (pyround (x * 10 ^ ndigits) : ℝ) / 10 ^ ndigits

/-- The result dictionary of `compute_greeks`:
`{"iv": ..., "delta": ..., "gamma": ..., "theta": ..., "vega": ...}`. -/
@[ext]
structure GreeksResult where
  iv : ℝ
  delta : ℝ
  gamma : ℝ
  theta : ℝ
  vega : ℝ

/-- The all-zero result initialised at line 174 of `compute_greeks`. -/
def zeroGreeks : GreeksResult := ⟨0, 0, 0, 0, 0⟩

/-- Embedding of `compute_greeks(S, K, T, r, sigma, option_type, option_price)`;
the optional `sigma` and `option_price` arguments become `Option ℝ`.  In this
real-number embedding the arithmetic of the `try` block is total, so the
`except` branch returning the all-zero result is unreachable. -/
noncomputable def compute_greeks (S K T r : ℝ) (sigma? : Option ℝ)
    (option_type : OptionType) (option_price? : Option ℝ) : GreeksResult :=
  if S ≤ 0 ∨ K ≤ 0 ∨ T ≤ 0 then zeroGreeks
  else
    let sigmaR : Option ℝ :=
      match sigma? with
      | some s => some s
      | none =>
        match option_price? with
        | none => none
        | some p => if p ≤ 0 then none else some (compute_iv p S K T r option_type)
    match sigmaR with
    | none => zeroGreeks
    | some sigma =>
      if sigma ≤ 0 then zeroGreeks
      else
        let sqrt_T := Real.sqrt T
        let d1v := d1 S K T r sigma
        let d2v := d1v - sigma * sqrt_T
        let delta :=
          match option_type with
          | .CE => norm_cdf d1v
          | .PE => norm_cdf d1v - 1
        let gamma := norm_pdf d1v / (S * sigma * sqrt_T)
        let first_term := -(S * norm_pdf d1v * sigma) / (2 * sqrt_T)
        let theta0 :=
          match option_type with
          | .CE => first_term - r * K * Real.exp (-r * T) * norm_cdf d2v
          | .PE => first_term + r * K * Real.exp (-r * T) * norm_cdf (-d2v)
        let theta := theta0 / 365
        let vega := S * norm_pdf d1v * sqrt_T / 100
        { iv := round_to 2 (sigma * 100)
          delta := round_to 4 delta
          gamma := round_to 6 gamma
          theta := round_to 2 theta
          vega := round_to 2 vega }

/-- The volatility `compute_greeks` ends up using: the supplied `sigma` if
given, otherwise the IV solved from a positive `option_price`, otherwise `0`
(standing for the paths where the source returns the all-zero result before
any Greeks are computed). -/
noncomputable def resolved_sigma (S K T r : ℝ) (sigma? : Option ℝ)
    (option_type : OptionType) (option_price? : Option ℝ) : ℝ :=
  match sigma? with
  | some s => s
  | none =>
    match option_price? with
    | none => 0
    | some p => if p ≤ 0 then 0 else compute_iv p S K T r option_type

/-- On `low ≤ high`, every value `_bisection_iv` can return (an accepted
midpoint or the final midpoint) stays inside `[low, high]`. -/
theorem bisection_iv_mem (p S K T r : ℝ) (ot : OptionType) :
    ∀ (n : ℕ) ⦃low high : ℝ⦄, low ≤ high →
      low ≤ bisection_iv p S K T r ot n low high ∧
        bisection_iv p S K T r ot n low high ≤ high := by
  intro n
  induction n with
  | zero =>
    intro low high h
    constructor <;> (simp only [bisection_iv]; linarith)
  | succ n ih =>
    intro low high h
    have hm1 : low ≤ (low + high) / 2 := by linarith
    have hm2 : (low + high) / 2 ≤ high := by linarith
    simp only [bisection_iv]
    split
    · exact ⟨hm1, hm2⟩
    · split
      · exact ⟨(ih hm1).1, le_trans (ih hm1).2 hm2⟩
      · exact ⟨le_trans hm1 (ih hm2).1, (ih hm2).2⟩

/-- The canonical fallback call `_bisection_iv(price, S, K, T, r, side)` with
its default bounds returns a value of `[0.001, 5]`. -/
theorem bisection_iv_mem_std (p S K T r : ℝ) (ot : OptionType) :
    0.001 ≤ bisection_iv p S K T r ot 100 0.001 5.0 ∧
      bisection_iv p S K T r ot 100 0.001 5.0 ≤ 5 := by
  have h := bisection_iv_mem p S K T r ot 100 (show (0.001 : ℝ) ≤ 5.0 by norm_num)
  exact ⟨h.1, le_trans h.2 (by norm_num)⟩

/-- The Newton-Raphson loop keeps the volatility iterate inside `[0.001, 5]`:
the re-clamping after each step and the `[0.001, 5]` bisection fallback both
preserve the interval. -/
theorem newton_iter_mem (p S K T r : ℝ) (ot : OptionType) :
    ∀ (n : ℕ) ⦃sigma : ℝ⦄, 0.001 ≤ sigma → sigma ≤ 5 →
      0.001 ≤ newton_iter p S K T r ot n sigma ∧ newton_iter p S K T r ot n sigma ≤ 5 := by
  intro n
  induction n with
  | zero =>
    intro sigma h1 h2
    simp only [newton_iter]
    exact bisection_iv_mem_std p S K T r ot
  | succ n ih =>
    intro sigma h1 h2
    simp only [newton_iter]
    split
    · exact ⟨h1, h2⟩
    · split
      · exact bisection_iv_mem_std p S K T r ot
      · split
        · refine ih ?_ ?_ <;> norm_num
        · split
          · refine ih ?_ ?_ <;> norm_num
          · rename_i hc1 hc2
            push_neg at hc1 hc2
            refine ih ?_ ?_ <;> linarith

/-- C10 (helper, general price argument): whatever the input, `compute_iv`
returns `0` or a value of `[0.001, 5]`. -/
theorem compute_iv_cases_range (p S K T r : ℝ) (ot : OptionType) :
    compute_iv p S K T r ot = 0 ∨
      (0.001 ≤ compute_iv p S K T r ot ∧ compute_iv p S K T r ot ≤ 5) := by
  unfold compute_iv
  split
  · exact Or.inl rfl
  · split
    · exact Or.inl rfl
    · refine Or.inr (newton_iter_mem p S K T r ot 100 ?_ ?_)
      · exact le_trans (by norm_num) (le_max_right _ _)
      · exact max_le (le_trans (min_le_right _ _) (by norm_num)) (by norm_num)

/-- C10: for every input, the value returned by `compute_iv` lies in
`{0} ∪ [0.001, 5.0]`: the initial guess is clamped to `[0.01, 5.0]`, each
Newton-Raphson step is re-clamped to `[0.001, 5.0]`, and the bisection
fallback only returns midpoints of sub-intervals of `[0.001, 5.0]`. -/
theorem compute_iv_range (option_price S K T r : ℝ) (ot : OptionType) :
    compute_iv option_price S K T r ot = 0 ∨
      (0.001 ≤ compute_iv option_price S K T r ot ∧ compute_iv option_price S K T r ot ≤ 5) :=
  compute_iv_cases_range option_price S K T r ot

/-- C8: `compute_iv` returns `0` immediately on a non-positive price, spot,
strike or time-to-expiry, and whenever the market price is strictly below the
intrinsic-value floor. -/
theorem compute_iv_degenerate_zero (option_price S K T r : ℝ) (ot : OptionType) :
    (option_price ≤ 0 ∨ S ≤ 0 ∨ K ≤ 0 ∨ T ≤ 0 → compute_iv option_price S K T r ot = 0) ∧
    (option_price < intrinsic_floor S K T r ot → compute_iv option_price S K T r ot = 0) := by
  constructor
  · intro h
    unfold compute_iv
    rw [if_pos h]
  · intro h
    unfold compute_iv
    by_cases hg : option_price ≤ 0 ∨ S ≤ 0 ∨ K ≤ 0 ∨ T ≤ 0
    · rw [if_pos hg]
    · rw [if_neg hg, if_pos h]

/-- Witness for C8 at concrete inputs: a negative market price yields `0`, and
a put quoted below its intrinsic floor yields `0`. -/
theorem compute_iv_degenerate_zero_witness :
    (((-1 : ℝ) ≤ 0 ∨ (1 : ℝ) ≤ 0 ∨ (1 : ℝ) ≤ 0 ∨ (1 : ℝ) ≤ 0) ∧
        compute_iv (-1) 1 1 1 0 .CE = 0) ∧
    ((1 : ℝ) < intrinsic_floor 100 200 1 0 .PE ∧ compute_iv 1 100 200 1 0 .PE = 0) := by
  have h1 : ((-1 : ℝ) ≤ 0 ∨ (1 : ℝ) ≤ 0 ∨ (1 : ℝ) ≤ 0 ∨ (1 : ℝ) ≤ 0) := Or.inl (by norm_num)
  have h2 : (1 : ℝ) < intrinsic_floor 100 200 1 0 .PE := by
    have : intrinsic_floor 100 200 1 0 .PE = 100 := by
      simp only [intrinsic_floor, neg_zero, zero_mul, Real.exp_zero, mul_one]
      rw [max_eq_left (by norm_num)]
      norm_num
    rw [this]; norm_num
  exact ⟨⟨h1, (compute_iv_degenerate_zero (-1) 1 1 1 0 .CE).1 h1⟩,
    ⟨h2, (compute_iv_degenerate_zero 1 100 200 1 0 .PE).2 h2⟩⟩

/-- Each exit point of the Newton-Raphson loop either satisfies the price
tolerance at the returned volatility or hands over to the bisection fallback. -/
theorem newton_iter_exit (p S K T r : ℝ) (ot : OptionType) :
    ∀ (n : ℕ) (sigma : ℝ),
      |bs_price S K T r (newton_iter p S K T r ot n sigma) ot - p| < 1e-6 ∨
        newton_iter p S K T r ot n sigma = bisection_iv p S K T r ot 100 0.001 5.0 := by
  intro n
  induction n with
  | zero => intro sigma; exact Or.inr rfl
  | succ n ih =>
    intro sigma
    simp only [newton_iter]
    split
    · rename_i h
      exact Or.inl h
    · split
      · exact Or.inr rfl
      · split
        · exact ih _
        · split
          · exact ih _
          · exact ih _

/-- Helper for C1: for any price argument, `compute_iv` returns `0`, or a
volatility whose Black-Scholes price matches the argument within the `1e-6`
tolerance, or the best-effort result of the bisection fallback. -/
theorem compute_iv_exit (p S K T r : ℝ) (ot : OptionType) :
    compute_iv p S K T r ot = 0 ∨
      |bs_price S K T r (compute_iv p S K T r ot) ot - p| < 1e-6 ∨
      compute_iv p S K T r ot = bisection_iv p S K T r ot 100 0.001 5.0 := by
  unfold compute_iv
  split
  · exact Or.inl rfl
  · split
    · exact Or.inl rfl
    · rcases newton_iter_exit p S K T r ot 100
          (max (min (Real.sqrt (2 * Real.pi / T) * (p / S)) 5.0) 0.01) with h | h
      · exact Or.inr (Or.inl h)
      · exact Or.inr (Or.inr h)

/-- C1 as amended: round-tripping through `bs_price` and `compute_iv` does not
in general recover the volatility to `1e-4` (see the counterexample); what
holds is that the solved volatility is `0` (degenerate or below-intrinsic
price), or reproduces the original price within the `1e-6` price tolerance,
or is the best-effort bisection fallback value. -/
theorem compute_iv_roundtrip_price (S K T r sigma : ℝ) (ot : OptionType) :
    compute_iv (bs_price S K T r sigma ot) S K T r ot = 0 ∨
      |bs_price S K T r (compute_iv (bs_price S K T r sigma ot) S K T r ot) ot -
          bs_price S K T r sigma ot| < 1e-6 ∨
      compute_iv (bs_price S K T r sigma ot) S K T r ot =
        bisection_iv (bs_price S K T r sigma ot) S K T r ot 100 0.001 5.0 :=
  compute_iv_exit (bs_price S K T r sigma ot) S K T r ot

/-- One probe of Python's `bisect.bisect_left` loop:
`while lo < hi: mid = (lo+hi)//2; if a[mid] < x: lo = mid+1 else: hi = mid`,
embedded with a fuel argument (the interval shrinks at every probe, so
`a.length` fuel always suffices). -/
def bisect_loop (a : List ℚ) (x : ℚ) : ℕ → ℕ → ℕ → ℕ
  | 0, lo, _ => lo
  | fuel + 1, lo, hi =>
    if lo < hi then
      let mid := (lo + hi) / 2
      if a.getD mid 0 < x then bisect_loop a x fuel (mid + 1) hi
      else bisect_loop a x fuel lo mid
    else lo

/-- Embedding of `bisect.bisect_left(unique_strikes, atm_strike)` from
`instrument_service.py` line 173. -/
def bisect_left (a : List ℚ) (x : ℚ) : ℕ :=
  bisect_loop a x a.length 0 a.length

/-- The leftmost insertion point of `x` in `a`: the length of the prefix of
elements smaller than `x`.  On a sorted list this is the specification of
`bisect.bisect_left`. -/
def insertion_point (a : List ℚ) (x : ℚ) : ℕ :=
  (a.takeWhile (fun s => decide (s < x))).length

/-- Embedding of the strike-window selection of `get_option_symbols`
(lines 171-179 of `instrument_service.py`):
`start_idx = max(0, idx - strike_range)`, `end_idx = min(len, idx + strike_range + 1)`,
`target_strikes = unique_strikes[start_idx:end_idx]`.  Natural-number
subtraction renders `max(0, idx - radius)`. -/
def strike_window (strikes : List ℚ) (atm : ℚ) (radius : ℕ) : List ℚ :=
  let idx := bisect_left strikes atm
  let start := idx - radius
  let stop := min strikes.length (idx + radius + 1)
  (strikes.take stop).drop start

/-- Elements strictly before the insertion point are below `x`; the element at
the insertion point (when it exists) is not. -/
theorem insertion_point_spec (x : ℚ) (a : List ℚ) :
    (∀ i, i < insertion_point a x → a.getD i 0 < x) ∧
      insertion_point a x ≤ a.length ∧
      (insertion_point a x < a.length → ¬a.getD (insertion_point a x) 0 < x) := by
  induction a with
  | nil => simp [insertion_point]
  | cons h t ih =>
    by_cases hh : h < x
    · have he : insertion_point (h :: t) x = insertion_point t x + 1 := by
        simp [insertion_point, List.takeWhile_cons_of_pos, hh]
      refine ⟨?_, ?_, ?_⟩
      · intro i hi
        match i with
        | 0 => simpa using hh
        | j + 1 =>
          rw [List.getD_cons_succ]
          exact ih.1 j (by omega)
      · simp only [he, List.length_cons]
        omega
      · rw [he]
        intro hlt
        rw [List.getD_cons_succ]
        exact ih.2.2 (by simpa using hlt)
    · have he : insertion_point (h :: t) x = 0 := by
        simp [insertion_point, List.takeWhile_cons_of_neg, hh]
      refine ⟨?_, ?_, ?_⟩
      · intro i hi; omega
      · simp [he]
      · intro _
        simpa [he] using hh

/-- Strictly sorted lists compare strictly by position. -/
theorem sorted_getD_lt (a : List ℚ) (hs : List.Sorted (· < ·) a) {i j : ℕ}
    (hij : i < j) (hj : j < a.length) : a.getD i 0 < a.getD j 0 := by
  rw [List.getD_eq_getElem a 0 (lt_trans hij hj), List.getD_eq_getElem a 0 hj]
  have h := List.pairwise_iff_get.mp hs ⟨i, lt_trans hij hj⟩ ⟨j, hj⟩ hij
  simpa [List.get_eq_getElem] using h

/-- When the search interval is exhausted, its common bound is the insertion
point, provided everything left of it is below `x` and everything right of it
is not. -/
theorem bisect_final (a : List ℚ) (x : ℚ) (lo : ℕ) (hlo : lo ≤ a.length)
    (inv1 : ∀ i, i < lo → a.getD i 0 < x)
    (inv2 : ∀ i, lo ≤ i → i < a.length → ¬a.getD i 0 < x) :
    lo = insertion_point a x := by
  obtain ⟨h1, h2, h3⟩ := insertion_point_spec x a
  rcases lt_trichotomy lo (insertion_point a x) with h | h | h
  · exact absurd (h1 lo h) (inv2 lo le_rfl (lt_of_lt_of_le h h2))
  · exact h
  · exact absurd (inv1 _ h) (h3 (lt_of_lt_of_le h hlo))

/-- Correctness of the binary-search loop on a sorted list. -/
theorem bisect_loop_eq (a : List ℚ) (x : ℚ) (hs : List.Sorted (· < ·) a) :
    ∀ (fuel lo hi : ℕ), lo ≤ hi → hi ≤ a.length → hi - lo ≤ fuel →
      (∀ i, i < lo → a.getD i 0 < x) →
      (∀ i, hi ≤ i → i < a.length → ¬a.getD i 0 < x) →
      bisect_loop a x fuel lo hi = insertion_point a x := by
  intro fuel
  induction fuel with
  | zero =>
    intro lo hi hlh hha hfuel inv1 inv2
    have : lo = hi := by omega
    subst this
    exact bisect_final a x lo (le_trans hlh hha) inv1 inv2
  | succ fuel ih =>
    intro lo hi hlh hha hfuel inv1 inv2
    simp only [bisect_loop]
    split
    · rename_i hlt
      have hmid1 : lo ≤ (lo + hi) / 2 := by omega
      have hmid2 : (lo + hi) / 2 < hi := by omega
      split
      · rename_i hcmp
        refine ih ((lo + hi) / 2 + 1) hi (by omega) hha (by omega) ?_ inv2
        intro i hi'
        rcases lt_or_ge i ((lo + hi) / 2) with hlt' | hge
        · exact lt_trans (sorted_getD_lt a hs hlt' (lt_of_lt_of_le hmid2 hha)) hcmp
        · have : i = (lo + hi) / 2 := by omega
          rw [this]; exact hcmp
      · rename_i hcmp
        refine ih lo ((lo + hi) / 2) (by omega) (le_trans (le_of_lt hmid2) hha) (by omega) inv1 ?_
        intro i hge hilen
        rcases eq_or_lt_of_le hge with heq | hlt'
        · rw [← heq]; exact hcmp
        · intro hc
          exact hcmp (lt_trans (sorted_getD_lt a hs hlt' hilen) hc)
    · rename_i hnlt
      have : lo = hi := by omega
      subst this
      exact bisect_final a x lo (le_trans hlh hha) inv1 inv2

/-- The embedded `bisect.bisect_left` computes the insertion point on sorted
input. -/
theorem bisect_left_eq (a : List ℚ) (x : ℚ) (hs : List.Sorted (· < ·) a) :
    bisect_left a x = insertion_point a x := by
  refine bisect_loop_eq a x hs a.length 0 a.length (Nat.zero_le _) le_rfl (by omega) ?_ ?_
  · intro i hi; omega
  · intro i h1 h2; omega

/-- The binary search stays within `[0, a.length]` on any input, sorted or
not. -/
theorem bisect_loop_le (a : List ℚ) (x : ℚ) :
    ∀ (fuel lo hi : ℕ), lo ≤ hi → lo ≤ bisect_loop a x fuel lo hi ∧ bisect_loop a x fuel lo hi ≤ hi := by
  intro fuel
  induction fuel with
  | zero => intro lo hi h; exact ⟨le_rfl, h⟩
  | succ fuel ih =>
    intro lo hi h
    simp only [bisect_loop]
    split
    · rename_i hlt
      split
      · have hrec := ih ((lo + hi) / 2 + 1) hi (by omega)
        exact ⟨by omega, hrec.2⟩
      · have hrec := ih lo ((lo + hi) / 2) (by omega)
        exact ⟨hrec.1, by omega⟩
    · exact ⟨le_rfl, h⟩

/-- The computed index is at most the list length. -/
theorem bisect_left_le_length (a : List ℚ) (x : ℚ) : bisect_left a x ≤ a.length :=
  (bisect_loop_le a x a.length 0 a.length (Nat.zero_le _)).2

/-- Taking up to `min l.length n` is taking up to `n`. -/
theorem take_min_length {α : Type} (l : List α) (n : ℕ) :
    l.take (min l.length n) = l.take n := by
  rcases le_total l.length n with h | h
  · rw [min_eq_left h, List.take_length, List.take_of_length_le h]
  · rw [min_eq_right h]

/-- C5 as amended: on a sorted unique strike sequence the selection computes
the binary-search insertion point of `atm` and returns the strikes from
`index - radius` to `index + radius` inclusive, clipped to the sequence
bounds; when `atm` exactly equals a strike, that strike's index is the
center (the leftmost insertion point).  For strikes
`[100, 150, 200, 250, 300, 350, 400]`, `atm = 225`, `radius = 2`, the
insertion point is `3` and the window is `[150, 200, 250, 300, 350]`
(not `[150, 200, 250, 300]` as the claim states). -/
theorem strike_window_selection :
    (∀ (strikes : List ℚ) (atm : ℚ) (radius : ℕ), List.Sorted (· < ·) strikes →
        strike_window strikes atm radius =
          (strikes.take (insertion_point strikes atm + radius + 1)).drop
            (insertion_point strikes atm - radius)) ∧
    (∀ (strikes : List ℚ) (atm : ℚ) (i : ℕ) (h : i < strikes.length),
        List.Sorted (· < ·) strikes → strikes.get ⟨i, h⟩ = atm →
          bisect_left strikes atm = i) ∧
    strike_window [100, 150, 200, 250, 300, 350, 400] 225 2 = [150, 200, 250, 300, 350] := by
  refine ⟨?_, ?_, by decide⟩
  · intro strikes atm radius hs
    simp only [strike_window, bisect_left_eq strikes atm hs]
    rw [take_min_length]
  · intro strikes atm i h hs hget
    rw [bisect_left_eq strikes atm hs]
    have hgd : strikes.getD i 0 = atm := by
      rw [List.getD_eq_getElem strikes 0 h, ← hget]
      simp [List.get_eq_getElem]
    obtain ⟨h1, h2, h3⟩ := insertion_point_spec atm strikes
    rcases lt_trichotomy (insertion_point strikes atm) i with hlt | heq | hgt
    · exfalso
      have hip_lt : strikes.getD (insertion_point strikes atm) 0 < strikes.getD i 0 :=
        sorted_getD_lt strikes hs hlt h
      rw [hgd] at hip_lt
      exact h3 (lt_trans hlt h) hip_lt
    · exact heq
    · exfalso
      have hlt' := h1 i hgt
      rw [hgd] at hlt'
      exact lt_irrefl atm hlt'

/-- Witness for C5 at a concrete sorted strike list: the window agrees with
the insertion-point slice, and `atm` equal to the middle strike centers on
its index. -/
theorem strike_window_selection_witness :
    List.Sorted (· < ·) ([100, 150, 200] : List ℚ) ∧
    strike_window [100, 150, 200] 150 1 =
      (([100, 150, 200] : List ℚ).take (insertion_point [100, 150, 200] 150 + 1 + 1)).drop
        (insertion_point [100, 150, 200] 150 - 1) ∧
    bisect_left [100, 150, 200] 150 = 1 := by
  have hs : List.Sorted (· < ·) ([100, 150, 200] : List ℚ) := by decide
  refine ⟨hs, strike_window_selection.1 [100, 150, 200] 150 1 hs, ?_⟩
  exact strike_window_selection.2.1 [100, 150, 200] 150 1 (by decide) hs (by decide)

/-- Counterexample to C5 as stated: on `[100, 150, 200, 250, 300, 350, 400]`
with `atm = 225` and `radius = 2` the code selects five strikes
`[150, 200, 250, 300, 350]`, not the claimed `[150, 200, 250, 300]`. -/
theorem strike_window_example_counterexample :
    strike_window [100, 150, 200, 250, 300, 350, 400] 225 2 ≠ [150, 200, 250, 300] := by
  decide

/-- C6 as amended: for a positive radius, the selected window is non-empty
whenever the strike sequence is non-empty.  (For `radius = 0` and `atm`
above every strike the window is empty even on non-empty input, see the
counterexample.) -/
theorem strike_window_nonempty (strikes : List ℚ) (atm : ℚ) (radius : ℕ)
    (hne : strikes ≠ []) (hr : 1 ≤ radius) : strike_window strikes atm radius ≠ [] := by
  have hidx := bisect_left_le_length strikes atm
  have hlen : 0 < strikes.length := List.length_pos.mpr hne
  refine List.length_pos.mp ?_
  simp only [strike_window, List.length_drop, List.length_take]
  omega

/-- Witness for C6 at a concrete input: one strike, `atm` above it,
radius `1`. -/
theorem strike_window_nonempty_witness :
    (([100] : List ℚ) ≠ [] ∧ (1 : ℕ) ≤ 1) ∧ strike_window [100] 101 1 ≠ [] :=
  ⟨⟨by decide, le_rfl⟩, strike_window_nonempty [100] 101 1 (by decide) le_rfl⟩

/-- Counterexample to C6 as stated: for radius `0` and `atm` strictly above
the unique strike, the non-empty input `[100]` produces an empty window. -/
theorem strike_window_empty_counterexample :
    ([100] : List ℚ) ≠ [] ∧ strike_window [100] 101 0 = [] := by
  constructor <;> decide

/-- The per-token record built at lines 134-146 of `get_market_data_batch`
(`ltp`, `open`, `high`, `low`, `close`, `volume`, `oi`, `oi_change_pct`,
`last_trade_qty`, `total_buy_qty`, `total_sell_qty`); `open` is renamed
`openPrice` because `open` is a Lean keyword.  Numeric fields are embedded
as rationals so that results are decidable. -/
structure MarketQuote where
  ltp : ℚ
  openPrice : ℚ
  high : ℚ
  low : ℚ
  close : ℚ
  volume : ℚ
  oi : ℚ
  oiChangePct : ℚ
  lastTradeQty : ℚ
  totalBuyQty : ℚ
  totalSellQty : ℚ
deriving DecidableEq, Repr

/-- The four shapes of an upstream `getMarketData` outcome distinguished by
lines 125-171 of `angel_one.py`: a success envelope (`status` truthy with
`data`, carrying `fetched` items keyed by `symbolToken` and an `unfetched`
token list), a response with `errorcode == 'AB1004'` (rate limited), any
other error response, and a raised exception. -/
inductive ApiResponse where
  | success (fetched : List (ℕ × MarketQuote)) (unfetched : List ℕ)
  | rateLimited
  | apiError
  | exn
deriving DecidableEq, Repr

/-- Retry ceiling `max_retries = 3` from line 116 of `angel_one.py`. -/
def MAX_RETRIES : ℕ := 3

/-- Backoff base `base_delay = 1` (seconds) from line 117 of `angel_one.py`. -/
def BASE_DELAY : ℕ := 1

/-- Batch size `batch_size = 5` from line 105 of `angel_one.py`. -/
def BATCH_SIZE : ℕ := 5

/-- The attempt loop `for attempt in range(max_retries + 1)` for one batch
(lines 119-171 of `angel_one.py`), driven by an oracle `resp` giving the
upstream outcome of each attempt.  The result records the merged `fetched`
items on success (`none` when the batch is abandoned), the list of backoff
sleeps performed (`base_delay * 2 ** attempt`), and the number of upstream
calls issued.  Mirrors the source exactly: success breaks out; `AB1004`
sleeps and retries while attempts remain, else gives up; any other error
response breaks immediately; an exception sleeps and retries while attempts
remain, else gives up. -/
def attempt_loop (resp : ℕ → ApiResponse) :
    List ℕ → Option (List (ℕ × MarketQuote)) × List ℕ × ℕ
  | [] => (none, [], 0)
  | a :: rest =>
    match resp a with
    | .success f _ => (some f, [], 1)
    | .rateLimited =>
      if a < MAX_RETRIES then
        let r := attempt_loop resp rest
        (r.1, BASE_DELAY * 2 ^ a :: r.2.1, r.2.2 + 1)
      else (none, [], 1)
    | .apiError => (none, [], 1)
    | .exn =>
      if a < MAX_RETRIES then
        let r := attempt_loop resp rest
        (r.1, BASE_DELAY * 2 ^ a :: r.2.1, r.2.2 + 1)
      else (none, [], 1)

/-- All attempts for one batch: the loop ranges over attempts
`0, 1, ..., max_retries`. -/
def run_batch (resp : ℕ → ApiResponse) :
    Option (List (ℕ × MarketQuote)) × List ℕ × ℕ :=
  attempt_loop resp (List.range (MAX_RETRIES + 1))

/-- Embedding of the batch split
`[tokens[i:i + batch_size] for i in range(0, len(tokens), batch_size)]`
(line 106): batch `i` is `tokens[5*i : 5*i + 5]`. -/
def to_batches (l : List ℕ) : List (List ℕ) :=
  (List.range ((l.length + BATCH_SIZE - 1) / BATCH_SIZE)).map
    (fun i => (l.drop (BATCH_SIZE * i)).take BATCH_SIZE)

/-- Python-dict insertion `result[token] = {...}` (line 134), modelled as a
pointwise update of a lookup function. -/
def dict_insert (m : ℕ → Option MarketQuote) (k : ℕ) (v : MarketQuote) :
    ℕ → Option MarketQuote :=
  fun t => if t = k then some v else m t

/-- The merge loop `for item in fetched: result[item['symbolToken']] = {...}`. -/
def insert_all (m : ℕ → Option MarketQuote) :
    List (ℕ × MarketQuote) → (ℕ → Option MarketQuote)
  | [] => m
  | (k, v) :: rest => insert_all (dict_insert m k v) rest

/-- The outer loop over batches of `get_market_data_batch` (lines 112-175):
each batch runs its attempt loop; a successful batch merges its fetched items
into the accumulating result; an abandoned batch leaves it unchanged; the
loop continues over the remaining batches either way.  The second component
counts upstream calls.  The response oracle takes the batch index and the
attempt number.  (The fixed `time.sleep(0.3)` pacing between batches does
not affect the result map and is not tracked.) -/
def fetch_loop (resp : ℕ → ℕ → ApiResponse) :
    ℕ → List (List ℕ) → (ℕ → Option MarketQuote) → (ℕ → Option MarketQuote) × ℕ
  | _, [], m => (m, 0)
  | i, _b :: bs, m =>
    let rb := run_batch (resp i)
    let m1 :=
      match rb.1 with
      | some f => insert_all m f
      | none => m
    let rest := fetch_loop resp (i + 1) bs m1
    (rest.1, rb.2.2 + rest.2)

/-- Embedding of `get_market_data_batch(tokens)`: the empty token list
short-circuits to an empty map with no upstream call (lines 100-101);
otherwise every batch is attempted in order and the accumulated map is
returned. -/
def get_market_data_batch (tokens : List ℕ) (resp : ℕ → ℕ → ApiResponse) :
    (ℕ → Option MarketQuote) × ℕ :=
  if tokens = [] then (fun _ => none, 0)
  else fetch_loop resp 0 (to_batches tokens) (fun _ => none)

/-- Merging a fetched list adds exactly its token keys to the map. -/
theorem insert_all_isSome (f : List (ℕ × MarketQuote)) :
    ∀ (m : ℕ → Option MarketQuote) (t : ℕ),
      ((insert_all m f) t).isSome ↔ (m t).isSome ∨ t ∈ f.map Prod.fst := by
  induction f with
  | nil => intro m t; simp [insert_all]
  | cons p rest ih =>
    intro m t
    obtain ⟨k, v⟩ := p
    rw [insert_all, ih]
    simp only [dict_insert, List.map_cons, List.mem_cons]
    by_cases ht : t = k
    · simp [ht]
    · simp [ht]

/-- Characterisation of the accumulated result map: a token has a quote after
the batch loop exactly when it already had one or some later batch succeeded
and fetched it. -/
theorem fetch_loop_isSome (resp : ℕ → ℕ → ApiResponse) :
    ∀ (bs : List (List ℕ)) (i : ℕ) (m : ℕ → Option MarketQuote) (t : ℕ),
      (((fetch_loop resp i bs m).1) t).isSome ↔
        (m t).isSome ∨
          ∃ j, j < bs.length ∧
            ∃ f, (run_batch (resp (i + j))).1 = some f ∧ t ∈ f.map Prod.fst := by
  intro bs
  induction bs with
  | nil =>
    intro i m t
    simp [fetch_loop]
  | cons b bs ih =>
    intro i m t
    simp only [fetch_loop]
    cases hrb : (run_batch (resp i)).1 with
    | none =>
      rw [ih]
      constructor
      · rintro (hm | ⟨j, hj, f, hf, ht⟩)
        · exact Or.inl hm
        · refine Or.inr ⟨j + 1, by simpa using hj, f, ?_, ht⟩
          rw [show i + (j + 1) = i + 1 + j by omega]
          exact hf
      · rintro (hm | ⟨j, hj, f, hf, ht⟩)
        · exact Or.inl hm
        · match j with
          | 0 =>
            rw [add_zero] at hf
            rw [hrb] at hf
            exact absurd hf (by simp)
          | j' + 1 =>
            refine Or.inr ⟨j', by simp only [List.length_cons] at hj; omega, f, ?_, ht⟩
            rw [show i + 1 + j' = i + (j' + 1) by omega]
            exact hf
    | some f0 =>
      rw [ih, insert_all_isSome]
      constructor
      · rintro ((hm | hmem) | ⟨j, hj, f, hf, ht⟩)
        · exact Or.inl hm
        · exact Or.inr ⟨0, by simp only [List.length_cons]; omega, f0, by rw [add_zero]; exact hrb, hmem⟩
        · refine Or.inr ⟨j + 1, by simpa using hj, f, ?_, ht⟩
          rw [show i + (j + 1) = i + 1 + j by omega]
          exact hf
      · rintro (hm | ⟨j, hj, f, hf, ht⟩)
        · exact Or.inl (Or.inl hm)
        · match j with
          | 0 =>
            rw [add_zero, hrb] at hf
            obtain rfl : f0 = f := by injection hf
            exact Or.inl (Or.inr ht)
          | j' + 1 =>
            refine Or.inr ⟨j', by simp only [List.length_cons] at hj; omega, f, ?_, ht⟩
            rw [show i + 1 + j' = i + (j' + 1) by omega]
            exact hf

/-- A concrete quote value used by the oracle examples. -/
def exampleQuote : MarketQuote := ⟨0, 0, 0, 0, 0, 0, 0, 0, 0, 0, 0⟩

/-- Oracle for the C4 example: the second of three batches fails permanently
with a non-transient error response; the first and third succeed with their
own tokens. -/
def exampleResp : ℕ → ℕ → ApiResponse := fun i _ =>
  if i = 0 then .success ((List.range 5).map (fun t => (t, exampleQuote))) []
  else if i = 2 then .success ([10, 11].map (fun t => (t, exampleQuote))) []
  else .apiError

/-- C4: the fetcher returns the quotes of every token whose batch succeeded,
independently of other batches failing; a token is in the result exactly
when some attempted batch succeeded and fetched it.  For the empty token
list the result is the empty map and no upstream call is made.  In the
concrete example scenario (`12` tokens, batch size `5`, the second batch
failing permanently), exactly tokens `0-4`, `10` and `11` are present. -/
theorem get_market_data_batch_partial :
    (∀ resp, get_market_data_batch [] resp = (fun _ => none, 0)) ∧
    (∀ (tokens : List ℕ) (resp : ℕ → ℕ → ApiResponse) (t : ℕ),
      (((get_market_data_batch tokens resp).1) t).isSome ↔
        ∃ j, j < (to_batches tokens).length ∧
          ∃ f, (run_batch (resp j)).1 = some f ∧ t ∈ f.map Prod.fst) ∧
    (List.range 12).map
        (fun t => (((get_market_data_batch (List.range 12) exampleResp).1) t).isSome) =
      [true, true, true, true, true, false, false, false, false, false, true, true] := by
  refine ⟨fun resp => rfl, ?_, by decide⟩
  intro tokens resp t
  by_cases he : tokens = []
  · subst he
    simp [get_market_data_batch, to_batches, BATCH_SIZE]
  · rw [get_market_data_batch, if_neg he, fetch_loop_isSome]
    simp only [Option.isSome_none, Bool.false_eq_true, false_or, zero_add]

/-- C3 as amended: for one batch, a rate-limited response (`AB1004`) is
retried with exponential backoff `base_delay * 2 ^ attempt` up to the retry
ceiling (success after `k ≤ max_retries` rate-limited attempts yields the
batch data after exactly the backoff sleeps `base*2^0, ..., base*2^(k-1)`;
exhaustion abandons the batch after all sleeps); any *error response* other
than the rate-limit code abandons the batch immediately, without any retry;
but — contrary to the claim as stated — a raised *exception* is also retried
with the same exponential backoff rather than abandoning the batch. -/
theorem batch_retry_policy :
    (∀ (resp : ℕ → ApiResponse) (k : ℕ) (f : List (ℕ × MarketQuote)) (u : List ℕ),
      k ≤ MAX_RETRIES → (∀ a, a < k → resp a = .rateLimited) → resp k = .success f u →
        run_batch resp =
          (some f, (List.range k).map (fun a => BASE_DELAY * 2 ^ a), k + 1)) ∧
    (∀ resp : ℕ → ApiResponse, resp 0 = .apiError → run_batch resp = (none, [], 1)) ∧
    (∀ resp : ℕ → ApiResponse, (∀ a, a ≤ MAX_RETRIES → resp a = .rateLimited) →
      run_batch resp =
        (none, (List.range MAX_RETRIES).map (fun a => BASE_DELAY * 2 ^ a),
          MAX_RETRIES + 1)) ∧
    (∀ (resp : ℕ → ApiResponse) (f : List (ℕ × MarketQuote)) (u : List ℕ),
      resp 0 = .exn → resp 1 = .success f u →
        run_batch resp = (some f, [BASE_DELAY], 2)) := by
  have hrange : List.range (MAX_RETRIES + 1) = [0, 1, 2, 3] := rfl
  refine ⟨?_, ?_, ?_, ?_⟩
  · intro resp k f u hk hrl hs
    have hk4 : k = 0 ∨ k = 1 ∨ k = 2 ∨ k = 3 := by
      simp only [MAX_RETRIES] at hk; omega
    rw [run_batch, hrange]
    rcases hk4 with rfl | rfl | rfl | rfl
    · simp [attempt_loop, hs]
    · have h0 := hrl 0 (by norm_num)
      simp [attempt_loop, h0, hs, MAX_RETRIES, BASE_DELAY, List.range_succ]
    · have h0 := hrl 0 (by norm_num)
      have h1 := hrl 1 (by norm_num)
      simp [attempt_loop, h0, h1, hs, MAX_RETRIES, BASE_DELAY, List.range_succ]
    · have h0 := hrl 0 (by norm_num)
      have h1 := hrl 1 (by norm_num)
      have h2 := hrl 2 (by norm_num)
      simp [attempt_loop, h0, h1, h2, hs, MAX_RETRIES, BASE_DELAY, List.range_succ]
  · intro resp h0
    rw [run_batch, hrange]
    simp [attempt_loop, h0]
  · intro resp hrl
    have h0 := hrl 0 (by simp [MAX_RETRIES])
    have h1 := hrl 1 (by simp [MAX_RETRIES])
    have h2 := hrl 2 (by simp [MAX_RETRIES])
    have h3 := hrl 3 (by simp [MAX_RETRIES])
    rw [run_batch, hrange]
    simp [attempt_loop, h0, h1, h2, h3, MAX_RETRIES, BASE_DELAY, List.range_succ]
  · intro resp f u h0 h1
    rw [run_batch, hrange]
    simp [attempt_loop, h0, h1, MAX_RETRIES, BASE_DELAY]

/-- Oracle witnessing the rate-limit retry schedule: two `AB1004` responses,
then success. -/
def rlResp : ℕ → ApiResponse := fun a =>
  if a < 2 then .rateLimited else .success [(7, exampleQuote)] []

/-- Oracle witnessing immediate abandonment on a non-rate-limit error
response. -/
def errResp : ℕ → ApiResponse := fun _ => .apiError

/-- Oracle witnessing permanent rate limiting. -/
def rlForeverResp : ℕ → ApiResponse := fun _ => .rateLimited

/-- Oracle witnessing the exception-retry behaviour: an exception, then
success. -/
def exnResp : ℕ → ApiResponse := fun a =>
  if a = 0 then .exn else .success [] []

/-- Witness for C3: each clause of `batch_retry_policy` applied at a concrete
oracle. -/
theorem batch_retry_policy_witness :
    ((2 ≤ MAX_RETRIES ∧ rlResp 2 = .success [(7, exampleQuote)] []) ∧
      run_batch rlResp =
        (some [(7, exampleQuote)], [BASE_DELAY * 2 ^ 0, BASE_DELAY * 2 ^ 1], 3)) ∧
    (errResp 0 = .apiError ∧ run_batch errResp = (none, [], 1)) ∧
    (run_batch rlForeverResp =
      (none, (List.range MAX_RETRIES).map (fun a => BASE_DELAY * 2 ^ a), MAX_RETRIES + 1)) ∧
    ((exnResp 0 = .exn ∧ exnResp 1 = .success [] []) ∧ run_batch exnResp = (some [], [BASE_DELAY], 2)) := by
  have hc1 : run_batch rlResp =
      (some [(7, exampleQuote)], (List.range 2).map (fun a => BASE_DELAY * 2 ^ a), 2 + 1) :=
    batch_retry_policy.1 rlResp 2 [(7, exampleQuote)] []
      (by simp [MAX_RETRIES])
      (fun a ha => by simp [rlResp, ha])
      (by simp [rlResp])
  refine ⟨⟨⟨by simp [MAX_RETRIES], by simp [rlResp]⟩, ?_⟩, ⟨rfl, ?_⟩, ?_, ⟨⟨rfl, rfl⟩, ?_⟩⟩
  · rw [hc1]
    simp [List.range_succ]
  · exact batch_retry_policy.2.1 errResp rfl
  · exact batch_retry_policy.2.2.1 rlForeverResp (fun a _ => rfl)
  · exact batch_retry_policy.2.2.2 exnResp [] [] rfl rfl

/-- Counterexample to C3 as stated: a batch whose first attempt fails with a
raised exception (not the rate-limit code) is retried — here it is retried
once after a backoff sleep of `base_delay * 2 ^ 0` and then succeeds, issuing
two upstream calls — rather than being abandoned without any retry. -/
theorem batch_exception_retried_counterexample :
    exnResp 0 = .exn ∧ exnResp 0 ≠ .rateLimited ∧
      run_batch exnResp = (some [], [BASE_DELAY * 2 ^ 0], 2) := by
  refine ⟨rfl, by decide, ?_⟩
  decide

/-- The density `_norm_pdf` is nonnegative. -/
theorem norm_pdf_nonneg (x : ℝ) : 0 ≤ norm_pdf x :=
  div_nonneg (Real.exp_pos _).le (Real.sqrt_nonneg _)

/-- The normalising constant `sqrt(2*pi)` is positive. -/
theorem sqrt_two_pi_pos : 0 < Real.sqrt (2 * Real.pi) :=
  Real.sqrt_pos.mpr (by positivity)

/-- The normalising constant `sqrt(2*pi)` is at least one. -/
theorem one_le_sqrt_two_pi : 1 ≤ Real.sqrt (2 * Real.pi) := by
  rw [show (1 : ℝ) = Real.sqrt 1 from (Real.sqrt_one).symm]
  exact Real.sqrt_le_sqrt (by nlinarith [Real.pi_gt_three])

/-- The density rewritten in the `exp (-b * x ^ 2)` shape of the Mathlib
Gaussian-integral lemmas. -/
theorem norm_pdf_eq : norm_pdf = fun x => Real.exp (-(1 / 2) * x ^ 2) / Real.sqrt (2 * Real.pi) := by
  funext x
  unfold norm_pdf
  norm_num [sq]
  ring_nf

/-- The density `_norm_pdf` is integrable over the whole line. -/
theorem norm_pdf_integrable : MeasureTheory.Integrable norm_pdf := by
  rw [norm_pdf_eq]
  exact (integrable_exp_neg_mul_sq (by norm_num : (0 : ℝ) < 1 / 2)).div_const _

/-- The density integrates to one. -/
theorem integral_norm_pdf : ∫ x : ℝ, norm_pdf x = 1 := by
  rw [norm_pdf_eq]
  rw [MeasureTheory.integral_div]
  rw [integral_gaussian]
  rw [show Real.pi / (1 / 2) = 2 * Real.pi by ring]
  exact div_self (ne_of_gt sqrt_two_pi_pos)

/-- The CDF is nonnegative. -/
theorem norm_cdf_nonneg (x : ℝ) : 0 ≤ norm_cdf x :=
  MeasureTheory.setIntegral_nonneg measurableSet_Iic fun t _ => norm_pdf_nonneg t

/-- The CDF is at most one. -/
theorem norm_cdf_le_one (x : ℝ) : norm_cdf x ≤ 1 := by
  have h : ∫ t in Set.Iic x, norm_pdf t ≤ ∫ t : ℝ, norm_pdf t :=
    MeasureTheory.setIntegral_le_integral norm_pdf_integrable
      (Filter.Eventually.of_forall norm_pdf_nonneg)
  calc norm_cdf x ≤ ∫ t : ℝ, norm_pdf t := h
  _ = 1 := integral_norm_pdf

/-- Gaussian lower-tail bound: for `x ≤ -1` the CDF is below the density's
exponential factor.  Proof: for `t ≤ x ≤ -1` one has
`norm_pdf t ≤ norm_pdf x * exp (t - x)` (the quadratic
`(x - t) * (t + x + 2)` is nonnegative there), and the exponential
majorant integrates to `norm_pdf x ≤ exp (-0.5 x²)` over `(-∞, x]`. -/
theorem norm_cdf_le_exp {x : ℝ} (hx : x ≤ -1) :
    norm_cdf x ≤ Real.exp (-0.5 * x * x) := by
  have hpt : ∀ t ∈ Set.Iic x, norm_pdf t ≤ norm_pdf x * Real.exp (t - x) := by
    intro t ht
    simp only [Set.mem_Iic] at ht
    unfold norm_pdf
    rw [div_mul_eq_mul_div]
    rw [div_le_div_iff_of_pos_right sqrt_two_pi_pos]
    rw [← Real.exp_add]
    apply Real.exp_le_exp.mpr
    have h1 : 0 ≤ x - t := by linarith
    have h2 : 0 ≤ -(t + x + 2) := by linarith
    nlinarith [mul_nonneg h1 h2]
  have hrw : (fun t : ℝ => norm_pdf x * Real.exp (t - x)) =
      fun t : ℝ => norm_pdf x * Real.exp (-x) * Real.exp t := by
    funext t
    rw [Real.exp_sub, Real.exp_neg]
    ring
  have hint_rhs : MeasureTheory.IntegrableOn
      (fun t : ℝ => norm_pdf x * Real.exp (t - x)) (Set.Iic x) := by
    rw [hrw]
    exact (integrableOn_exp_Iic x).const_mul _
  have hmono := MeasureTheory.setIntegral_mono_on
    norm_pdf_integrable.integrableOn hint_rhs measurableSet_Iic hpt
  have hrhs : ∫ t in Set.Iic x, norm_pdf x * Real.exp (t - x) = norm_pdf x := by
    rw [hrw, MeasureTheory.integral_mul_left, integral_exp_Iic]
    rw [mul_assoc, ← Real.exp_add]
    simp
  calc norm_cdf x = ∫ t in Set.Iic x, norm_pdf t := rfl
  _ ≤ ∫ t in Set.Iic x, norm_pdf x * Real.exp (t - x) := hmono
  _ = norm_pdf x := hrhs
  _ ≤ Real.exp (-0.5 * x * x) := div_le_self (Real.exp_pos _).le one_le_sqrt_two_pi

/-- Any exponential with argument below `-100` is below `1e-30`. -/
theorem exp_le_tiny {x : ℝ} (hx : x ≤ -100) : Real.exp x ≤ 1e-30 := by
  have h1 : Real.exp x ≤ Real.exp (-100) := Real.exp_le_exp.mpr hx
  have he : (2 : ℝ) ≤ Real.exp 1 := by
    have h := Real.add_one_le_exp (1 : ℝ)
    linarith
  have h3 : (2 : ℝ) ^ (100 : ℕ) ≤ Real.exp 100 := by
    calc (2 : ℝ) ^ (100 : ℕ) ≤ Real.exp 1 ^ (100 : ℕ) :=
      pow_le_pow_left₀ (by norm_num) he 100
    _ = Real.exp 100 := by
      rw [← Real.exp_nat_mul]
      norm_num
  have h4 : Real.exp (-100) ≤ ((2 : ℝ) ^ (100 : ℕ))⁻¹ := by
    rw [Real.exp_neg]
    exact inv_anti₀ (by positivity) h3
  refine le_trans h1 (le_trans h4 ?_)
  norm_num

/-- Tail bound composed with the exponential estimate. -/
theorem norm_cdf_le_tiny {x : ℝ} (hx : x ≤ -1) (hx2 : -0.5 * x * x ≤ -100) :
    norm_cdf x ≤ 1e-30 :=
  le_trans (norm_cdf_le_exp hx) (exp_le_tiny hx2)

/-- Banker's rounding lands between floor and ceiling. -/
theorem pyround_bounds (x : ℝ) : ⌊x⌋ ≤ pyround x ∧ pyround x ≤ ⌈x⌉ := by
  unfold pyround
  split
  · rename_i hf
    have hfr : x - ⌊x⌋ = 1 / 2 := by
      rw [Int.self_sub_floor]
      exact hf
    rw [round_eq, show x / 2 + 1 / 2 = (x + 1) / 2 from by ring]
    have hj1 : ((⌊(x + 1) / 2⌋ : ℤ) : ℝ) ≤ (x + 1) / 2 := Int.floor_le _
    have hj2 : (x + 1) / 2 < (⌊(x + 1) / 2⌋ : ℤ) + 1 := Int.lt_floor_add_one _
    constructor
    · have hcast : ((⌊x⌋ : ℤ) : ℝ) - 1 < 2 * (⌊(x + 1) / 2⌋ : ℤ) := by
        linarith
      have hint : (⌊x⌋ : ℤ) - 1 < 2 * ⌊(x + 1) / 2⌋ := by exact_mod_cast hcast
      omega
    · have hceil : ⌊x⌋ < ⌈x⌉ := by
        rw [Int.lt_ceil]
        linarith
      have hcast : (2 * (⌊(x + 1) / 2⌋ : ℤ) : ℝ) < ((⌊x⌋ : ℤ) : ℝ) + 2 := by
        linarith
      have hint : 2 * ⌊(x + 1) / 2⌋ < (⌊x⌋ : ℤ) + 2 := by exact_mod_cast hcast
      omega
  · rw [round_eq]
    constructor
    · exact Int.floor_le_floor (by linarith)
    · have h1 : ((⌊x + 1 / 2⌋ : ℤ) : ℝ) ≤ x + 1 / 2 := Int.floor_le _
      have h2 : x ≤ ((⌈x⌉ : ℤ) : ℝ) := Int.le_ceil x
      have hcast : ((⌊x + 1 / 2⌋ : ℤ) : ℝ) < ((⌈x⌉ : ℤ) : ℝ) + 1 := by linarith
      have hint : (⌊x + 1 / 2⌋ : ℤ) < (⌈x⌉ : ℤ) + 1 := by exact_mod_cast hcast
      omega

/-- Rounding to `n` digits preserves nonnegativity. -/
theorem round_to_nonneg (n : ℕ) {x : ℝ} (hx : 0 ≤ x) : 0 ≤ round_to n x := by
  unfold round_to
  apply div_nonneg _ (by positivity)
  have h := (pyround_bounds (x * 10 ^ n)).1
  have h0 : (0 : ℤ) ≤ ⌊x * 10 ^ n⌋ := Int.floor_nonneg.mpr (by positivity)
  exact_mod_cast le_trans h0 h

/-- Rounding to `n` digits preserves nonpositivity. -/
theorem round_to_nonpos (n : ℕ) {x : ℝ} (hx : x ≤ 0) : round_to n x ≤ 0 := by
  unfold round_to
  apply div_nonpos_of_nonpos_of_nonneg _ (by positivity)
  have h := (pyround_bounds (x * 10 ^ n)).2
  have h0 : ⌈x * 10 ^ n⌉ ≤ (0 : ℤ) := Int.ceil_le.mpr (by
    push_cast
    exact mul_nonpos_of_nonpos_of_nonneg hx (by positivity))
  exact_mod_cast le_trans h h0

/-- Rounding to `n` digits preserves the upper bound `1`. -/
theorem round_to_le_one (n : ℕ) {x : ℝ} (hx : x ≤ 1) : round_to n x ≤ 1 := by
  unfold round_to
  rw [div_le_one (by positivity)]
  have h := (pyround_bounds (x * 10 ^ n)).2
  have h0 : ⌈x * 10 ^ n⌉ ≤ ((10 : ℤ) ^ n) := Int.ceil_le.mpr (by
    push_cast
    exact mul_le_of_le_one_left (by positivity) hx)
  have := le_trans h h0
  exact_mod_cast this

/-- Rounding to `n` digits preserves the lower bound `-1`. -/
theorem round_to_neg_one_le (n : ℕ) {x : ℝ} (hx : -1 ≤ x) : -1 ≤ round_to n x := by
  unfold round_to
  rw [le_div_iff₀ (by positivity)]
  have h := (pyround_bounds (x * 10 ^ n)).1
  have h0 : (-(10 : ℤ) ^ n) ≤ ⌊x * 10 ^ n⌋ := Int.le_floor.mpr (by
    push_cast
    nlinarith [pow_pos (show (0:ℝ) < 10 by norm_num) n])
  have hle : (-(10 : ℤ) ^ n : ℝ) ≤ (pyround (x * 10 ^ n) : ℝ) := by exact_mod_cast le_trans h0 h
  push_cast at hle ⊢
  linarith

/-- When spot, strike, time and the resolved volatility are all positive,
`compute_greeks` reaches its `try` block and returns the rounded
Black-Scholes partials at the resolved volatility. -/
theorem compute_greeks_pos_eq (S K T r : ℝ) (sigma? : Option ℝ) (ot : OptionType)
    (op? : Option ℝ) (hS : 0 < S) (hK : 0 < K) (hT : 0 < T)
    (hsig : 0 < resolved_sigma S K T r sigma? ot op?) :
    compute_greeks S K T r sigma? ot op? =
      (let sigma := resolved_sigma S K T r sigma? ot op?
      let sqrt_T := Real.sqrt T
      let d1v := d1 S K T r sigma
      let d2v := d1v - sigma * sqrt_T
      let delta :=
        match ot with
        | .CE => norm_cdf d1v
        | .PE => norm_cdf d1v - 1
      let gamma := norm_pdf d1v / (S * sigma * sqrt_T)
      let first_term := -(S * norm_pdf d1v * sigma) / (2 * sqrt_T)
      let theta0 :=
        match ot with
        | .CE => first_term - r * K * Real.exp (-r * T) * norm_cdf d2v
        | .PE => first_term + r * K * Real.exp (-r * T) * norm_cdf (-d2v)
      let theta := theta0 / 365
      let vega := S * norm_pdf d1v * sqrt_T / 100
      { iv := round_to 2 (sigma * 100)
        delta := round_to 4 delta
        gamma := round_to 6 gamma
        theta := round_to 2 theta
        vega := round_to 2 vega }) := by
  have hguard : ¬(S ≤ 0 ∨ K ≤ 0 ∨ T ≤ 0) := by push_neg; exact ⟨hS, hK, hT⟩
  cases sigma? with
  | some s =>
    simp only [resolved_sigma] at hsig ⊢
    simp only [compute_greeks, if_neg hguard, if_neg (not_le.mpr hsig)]
    cases ot <;> rfl
  | none =>
    cases op? with
    | none => simp only [resolved_sigma] at hsig; exact absurd hsig (lt_irrefl 0)
    | some p =>
      by_cases hp : p ≤ 0
      · simp only [resolved_sigma, if_pos hp] at hsig
        exact absurd hsig (lt_irrefl 0)
      · simp only [resolved_sigma, if_neg hp] at hsig ⊢
        simp only [compute_greeks, if_neg hguard, if_neg hp, if_neg (not_le.mpr hsig)]
        cases ot <;> rfl

/-- C9: for positive spot, strike, time-to-expiry and resolved volatility,
the returned Greeks satisfy `delta ∈ [-1, 1]` — within `[0, 1]` for calls and
`[-1, 0]` for puts — `gamma ≥ 0` and `vega ≥ 0`, the bounds surviving the
per-field rounding. -/
theorem compute_greeks_bounds (S K T r : ℝ) (sigma? : Option ℝ) (ot : OptionType)
    (op? : Option ℝ) (hS : 0 < S) (hK : 0 < K) (hT : 0 < T)
    (hsig : 0 < resolved_sigma S K T r sigma? ot op?) :
    (-1 ≤ (compute_greeks S K T r sigma? ot op?).delta ∧
        (compute_greeks S K T r sigma? ot op?).delta ≤ 1) ∧
    (ot = .CE → 0 ≤ (compute_greeks S K T r sigma? ot op?).delta ∧
        (compute_greeks S K T r sigma? ot op?).delta ≤ 1) ∧
    (ot = .PE → -1 ≤ (compute_greeks S K T r sigma? ot op?).delta ∧
        (compute_greeks S K T r sigma? ot op?).delta ≤ 0) ∧
    0 ≤ (compute_greeks S K T r sigma? ot op?).gamma ∧
    0 ≤ (compute_greeks S K T r sigma? ot op?).vega := by
  cases ot with
  | CE =>
    rw [compute_greeks_pos_eq S K T r sigma? .CE op? hS hK hT hsig]
    dsimp only
    set sigma := resolved_sigma S K T r sigma? .CE op? with hsd
    set d1v := d1 S K T r sigma with hd1
    have hgamma : 0 ≤ round_to 6 (norm_pdf d1v / (S * sigma * Real.sqrt T)) :=
      round_to_nonneg 6 (div_nonneg (norm_pdf_nonneg _)
        (mul_nonneg (mul_nonneg hS.le hsig.le) (Real.sqrt_nonneg _)))
    have hvega : 0 ≤ round_to 2 (S * norm_pdf d1v * Real.sqrt T / 100) :=
      round_to_nonneg 2 (div_nonneg
        (mul_nonneg (mul_nonneg hS.le (norm_pdf_nonneg _)) (Real.sqrt_nonneg _)) (by norm_num))
    have hdelta1 : 0 ≤ round_to 4 (norm_cdf d1v) := round_to_nonneg 4 (norm_cdf_nonneg _)
    have hdelta2 : round_to 4 (norm_cdf d1v) ≤ 1 := round_to_le_one 4 (norm_cdf_le_one _)
    exact ⟨⟨by linarith, hdelta2⟩, fun _ => ⟨hdelta1, hdelta2⟩,
      fun h => absurd h (by simp), hgamma, hvega⟩
  | PE =>
    rw [compute_greeks_pos_eq S K T r sigma? .PE op? hS hK hT hsig]
    dsimp only
    set sigma := resolved_sigma S K T r sigma? .PE op? with hsd
    set d1v := d1 S K T r sigma with hd1
    have hgamma : 0 ≤ round_to 6 (norm_pdf d1v / (S * sigma * Real.sqrt T)) :=
      round_to_nonneg 6 (div_nonneg (norm_pdf_nonneg _)
        (mul_nonneg (mul_nonneg hS.le hsig.le) (Real.sqrt_nonneg _)))
    have hvega : 0 ≤ round_to 2 (S * norm_pdf d1v * Real.sqrt T / 100) :=
      round_to_nonneg 2 (div_nonneg
        (mul_nonneg (mul_nonneg hS.le (norm_pdf_nonneg _)) (Real.sqrt_nonneg _)) (by norm_num))
    have hdelta1 : -1 ≤ round_to 4 (norm_cdf d1v - 1) :=
      round_to_neg_one_le 4 (by linarith [norm_cdf_nonneg d1v])
    have hdelta2 : round_to 4 (norm_cdf d1v - 1) ≤ 0 :=
      round_to_nonpos 4 (by linarith [norm_cdf_le_one d1v])
    exact ⟨⟨hdelta1, by linarith⟩, fun h => absurd h (by simp),
      fun _ => ⟨hdelta1, hdelta2⟩, hgamma, hvega⟩

/-- Witness for C9 at `S = K = 100`, `T = 1`, the source's risk-free rate and
a supplied volatility of `0.2`. -/
theorem compute_greeks_bounds_witness :
    ((0 : ℝ) < 100 ∧ (0 : ℝ) < 100 ∧ (0 : ℝ) < 1 ∧
        0 < resolved_sigma 100 100 1 RISK_FREE_RATE (some 0.2) .CE none) ∧
    (-1 ≤ (compute_greeks 100 100 1 RISK_FREE_RATE (some 0.2) .CE none).delta ∧
        (compute_greeks 100 100 1 RISK_FREE_RATE (some 0.2) .CE none).delta ≤ 1) ∧
    0 ≤ (compute_greeks 100 100 1 RISK_FREE_RATE (some 0.2) .CE none).gamma ∧
    0 ≤ (compute_greeks 100 100 1 RISK_FREE_RATE (some 0.2) .CE none).vega := by
  have hsig : (0 : ℝ) < resolved_sigma 100 100 1 RISK_FREE_RATE (some 0.2) .CE none := by
    simp only [resolved_sigma]
    norm_num
  have h := compute_greeks_bounds 100 100 1 RISK_FREE_RATE (some 0.2) .CE none
    (by norm_num) (by norm_num) (by norm_num) hsig
  exact ⟨⟨by norm_num, by norm_num, by norm_num, hsig⟩, h.1, h.2.2.2⟩

/-- For the deep out-of-the-money call `S = 1`, `K = exp 21`, `T = 1`, `r = 0`
and any volatility `0 < sigma ≤ 0.1`, the Black-Scholes price is within
`1e-30` of zero: both `Phi(d1)` and `K * Phi(d2)` are bounded by the Gaussian
tail estimate. -/
theorem deep_otm_price_bound (sig : ℝ) (h1 : 0 < sig) (h2 : sig ≤ 0.1) :
    -1e-30 ≤ bs_price 1 (Real.exp 21) 1 0 sig .CE ∧
      bs_price 1 (Real.exp 21) 1 0 sig .CE ≤ 1e-30 := by
  have hK : (0 : ℝ) < Real.exp 21 := Real.exp_pos _
  have hguard : ¬((1 : ℝ) ≤ 0 ∨ sig ≤ 0 ∨ (1 : ℝ) ≤ 0 ∨ Real.exp 21 ≤ 0) := by
    push_neg
    exact ⟨by norm_num, h1, by norm_num, hK⟩
  have hd1 : d1 1 (Real.exp 21) 1 0 sig = (-21 + 0.5 * sig * sig) / sig := by
    unfold d1
    rw [Real.sqrt_one, one_div, Real.log_inv, Real.log_exp]
    ring
  have hd1_le : d1 1 (Real.exp 21) 1 0 sig ≤ -209 := by
    rw [hd1, div_le_iff₀ h1]
    nlinarith
  have hd2_le : d1 1 (Real.exp 21) 1 0 sig - sig * Real.sqrt 1 ≤ -209 := by
    rw [Real.sqrt_one, mul_one]
    linarith
  have hcdf1 : norm_cdf (d1 1 (Real.exp 21) 1 0 sig) ≤ 1e-30 := by
    refine norm_cdf_le_tiny (le_trans hd1_le (by norm_num)) ?_
    nlinarith [hd1_le, sq_nonneg (d1 1 (Real.exp 21) 1 0 sig + 209)]
  have hcdf2 : Real.exp 21 *
      norm_cdf (d1 1 (Real.exp 21) 1 0 sig - sig * Real.sqrt 1) ≤ 1e-30 := by
    set d2v := d1 1 (Real.exp 21) 1 0 sig - sig * Real.sqrt 1 with hd2v
    have ha : norm_cdf d2v ≤ Real.exp (-0.5 * d2v * d2v) :=
      norm_cdf_le_exp (le_trans hd2_le (by norm_num))
    calc Real.exp 21 * norm_cdf d2v ≤ Real.exp 21 * Real.exp (-0.5 * d2v * d2v) :=
      mul_le_mul_of_nonneg_left ha hK.le
    _ = Real.exp (21 + -0.5 * d2v * d2v) := (Real.exp_add _ _).symm
    _ ≤ 1e-30 := exp_le_tiny (by nlinarith [hd2_le, sq_nonneg (d2v + 209)])
  have hval : bs_price 1 (Real.exp 21) 1 0 sig .CE =
      norm_cdf (d1 1 (Real.exp 21) 1 0 sig) -
        Real.exp 21 * norm_cdf (d1 1 (Real.exp 21) 1 0 sig - sig * Real.sqrt 1) := by
    unfold bs_price
    rw [if_neg hguard]
    simp only [neg_zero, zero_mul, Real.exp_zero, one_mul, mul_one]
  rw [hval]
  have hn1 := norm_cdf_nonneg (d1 1 (Real.exp 21) 1 0 sig)
  have hn2 := mul_nonneg hK.le
    (norm_cdf_nonneg (d1 1 (Real.exp 21) 1 0 sig - sig * Real.sqrt 1))
  exact ⟨by linarith, by linarith⟩

/-- A Newton-Raphson iteration with remaining fuel returns the current
volatility as soon as the price tolerance is met. -/
theorem newton_iter_succ_tol (p S K T r : ℝ) (ot : OptionType) (n : ℕ) (sigma : ℝ)
    (h : |bs_price S K T r sigma ot - p| < 1e-6) :
    newton_iter p S K T r ot (n + 1) sigma = sigma := by
  simp only [newton_iter]
  rw [if_pos h]

/-- Counterexample to C1 as stated: for the valid inputs `S = 1`,
`K = exp 21`, `T = 1`, `r = 0`, `sigma = 0.05 ∈ [0.05, 2.0]` and side CALL,
the price is so deep out-of-the-money that the `1e-6` price tolerance accepts
the clamped initial guess `0.01` (or the degenerate branch returns `0`), so
the solved volatility differs from the original `0.05` by far more than the
claimed `1e-4`. -/
theorem compute_iv_roundtrip_counterexample :
    ¬(|compute_iv (bs_price 1 (Real.exp 21) 1 0 0.05 .CE) 1 (Real.exp 21) 1 0 .CE - 0.05|
        ≤ 1e-4) := by
  have hPb := deep_otm_price_bound 0.05 (by norm_num) (by norm_num)
  set P := bs_price 1 (Real.exp 21) 1 0 0.05 .CE with hP
  by_cases hp0 : P ≤ 0
  · have hzero : compute_iv P 1 (Real.exp 21) 1 0 .CE = 0 := by
      unfold compute_iv
      rw [if_pos (Or.inl hp0)]
    rw [hzero]
    intro h
    rw [abs_le] at h
    have := h.1
    norm_num at this
  · push_neg at hp0
    have hguard : ¬(P ≤ 0 ∨ (1 : ℝ) ≤ 0 ∨ Real.exp 21 ≤ 0 ∨ (1 : ℝ) ≤ 0) := by
      push_neg
      exact ⟨hp0, by norm_num, Real.exp_pos 21, by norm_num⟩
    have hintr : intrinsic_floor 1 (Real.exp 21) 1 0 .CE = 0 := by
      unfold intrinsic_floor
      simp only [neg_zero, zero_mul, Real.exp_zero, mul_one]
      rw [max_eq_right]
      have h21 : (22 : ℝ) ≤ Real.exp 21 := by
        have := Real.add_one_le_exp (21 : ℝ)
        linarith
      linarith
    have hnotlt : ¬(P < intrinsic_floor 1 (Real.exp 21) 1 0 .CE) := by
      rw [hintr]
      exact not_lt.mpr hp0.le
    have hsqrt : Real.sqrt (2 * Real.pi / 1) ≤ 3 := by
      rw [div_one, show (3 : ℝ) = Real.sqrt 9 by
        rw [show (9 : ℝ) = 3 ^ 2 by norm_num, Real.sqrt_sq (by norm_num)]]
      exact Real.sqrt_le_sqrt (by nlinarith [Real.pi_le_four])
    have hraw_le : Real.sqrt (2 * Real.pi / 1) * (P / 1) ≤ 0.01 := by
      rw [show P / 1 = P from div_one P]
      have hm : Real.sqrt (2 * Real.pi / 1) * P ≤ 3 * P :=
        mul_le_mul_of_nonneg_right hsqrt hp0.le
      linarith [hPb.2]
    have hseed : max (min (Real.sqrt (2 * Real.pi / 1) * (P / 1)) 5.0) 0.01 = 0.01 := by
      rw [min_eq_left (le_trans hraw_le (by norm_num)), max_eq_right hraw_le]
    have hiv : compute_iv P 1 (Real.exp 21) 1 0 .CE =
        newton_iter P 1 (Real.exp 21) 1 0 .CE 100 0.01 := by
      unfold compute_iv
      rw [if_neg hguard, if_neg hnotlt]
      dsimp only
      rw [hseed]
    have hq := deep_otm_price_bound 0.01 (by norm_num) (by norm_num)
    have htol : |bs_price 1 (Real.exp 21) 1 0 0.01 .CE - P| < 1e-6 := by
      rw [abs_lt]
      constructor <;> nlinarith [hq.1, hq.2, hPb.1, hPb.2]
    have hstep : newton_iter P 1 (Real.exp 21) 1 0 .CE 100 0.01 = 0.01 := by
      rw [show (100 : ℕ) = 99 + 1 from rfl]
      exact newton_iter_succ_tol P 1 (Real.exp 21) 1 0 .CE 99 0.01 htol
    rw [hiv, hstep]
    intro h
    rw [abs_le] at h
    have := h.1
    norm_num at this

/-- The density is bounded by its exponential factor. -/
theorem norm_pdf_le_exp (x : ℝ) : norm_pdf x ≤ Real.exp (-0.5 * x * x) :=
  div_le_self (Real.exp_pos _).le one_le_sqrt_two_pi

/-- Density tail estimate. -/
theorem norm_pdf_le_tiny {x : ℝ} (hx2 : -0.5 * x * x ≤ -100) : norm_pdf x ≤ 1e-30 :=
  le_trans (norm_pdf_le_exp x) (exp_le_tiny hx2)

/-- Banker's rounding of a value strictly inside `(-1/2, 1/2)` is zero. -/
theorem pyround_eq_zero {x : ℝ} (h : |x| < 1 / 2) : pyround x = 0 := by
  unfold pyround
  rw [abs_lt] at h
  have hne : Int.fract x ≠ 1 / 2 := by
    intro hf
    have h1 : x - ⌊x⌋ = 1 / 2 := by
      rw [Int.self_sub_floor]
      exact hf
    have h3 : (-1 : ℝ) < ((⌊x⌋ : ℤ) : ℝ) := by linarith
    have h4 : ((⌊x⌋ : ℤ) : ℝ) < 0 := by linarith
    have h5 : (-1 : ℤ) < ⌊x⌋ := by exact_mod_cast h3
    have h6 : ⌊x⌋ < 0 := by exact_mod_cast h4
    omega
  rw [if_neg hne, round_eq, Int.floor_eq_iff]
  constructor
  · push_cast
    linarith
  · push_cast
    linarith

/-- Rounding to `n` digits of a value below half an ulp is exactly zero. -/
theorem round_to_eq_zero (n : ℕ) {x : ℝ} (h : |x| * 10 ^ n < 1 / 2) :
    round_to n x = 0 := by
  unfold round_to
  rw [pyround_eq_zero, Int.cast_zero, zero_div]
  rw [abs_mul, abs_of_nonneg (show (0 : ℝ) ≤ 10 ^ n by positivity)]
  exact h

/-- C7 as amended: `compute_greeks` returns the all-zero result whenever
`S ≤ 0`, `K ≤ 0` or `T ≤ 0`; whenever no volatility is supplied and the
observed price is absent or non-positive; and whenever the resolved
volatility is non-positive; moreover, when a volatility is supplied the IV
solver is skipped — the result does not depend on the observed price at all.
(The enumeration is sufficient but, contrary to the claim's "exactly", not
exhaustive: rounding can also produce the all-zero result on valid inputs,
see the counterexample.  The claim's numeric-exception case is vacuous in
this exact-arithmetic embedding.) -/
theorem compute_greeks_zero_cases :
    (∀ (S K T r : ℝ) (sigma? : Option ℝ) (ot : OptionType) (op? : Option ℝ),
      S ≤ 0 ∨ K ≤ 0 ∨ T ≤ 0 → compute_greeks S K T r sigma? ot op? = zeroGreeks) ∧
    (∀ (S K T r : ℝ) (ot : OptionType),
      compute_greeks S K T r none ot none = zeroGreeks) ∧
    (∀ (S K T r : ℝ) (ot : OptionType) (p : ℝ), p ≤ 0 →
      compute_greeks S K T r none ot (some p) = zeroGreeks) ∧
    (∀ (S K T r : ℝ) (sigma? : Option ℝ) (ot : OptionType) (op? : Option ℝ),
      resolved_sigma S K T r sigma? ot op? ≤ 0 →
        compute_greeks S K T r sigma? ot op? = zeroGreeks) ∧
    (∀ (S K T r s : ℝ) (ot : OptionType) (p? q? : Option ℝ),
      compute_greeks S K T r (some s) ot p? = compute_greeks S K T r (some s) ot q?) := by
  refine ⟨?_, ?_, ?_, ?_, ?_⟩
  · intro S K T r sigma? ot op? h
    unfold compute_greeks
    rw [if_pos h]
  · intro S K T r ot
    unfold compute_greeks
    split
    · rfl
    · rfl
  · intro S K T r ot p hp
    unfold compute_greeks
    split
    · rfl
    · simp only [if_pos hp]
  · intro S K T r sigma? ot op? hres
    by_cases hg : S ≤ 0 ∨ K ≤ 0 ∨ T ≤ 0
    · unfold compute_greeks
      rw [if_pos hg]
    · cases sigma? with
      | some s =>
        simp only [resolved_sigma] at hres
        unfold compute_greeks
        rw [if_neg hg]
        simp only [if_pos hres]
      | none =>
        cases op? with
        | none =>
          unfold compute_greeks
          rw [if_neg hg]
        | some p =>
          by_cases hp : p ≤ 0
          · unfold compute_greeks
            rw [if_neg hg]
            simp only [if_pos hp]
          · simp only [resolved_sigma, if_neg hp] at hres
            unfold compute_greeks
            rw [if_neg hg]
            simp only [if_neg hp, if_pos hres]
  · intro S K T r s ot p? q?
    rfl

/-- Witness for C7: each zero case and the solver-skip equation at concrete
inputs. -/
theorem compute_greeks_zero_cases_witness :
    (((-1 : ℝ) ≤ 0 ∨ (1 : ℝ) ≤ 0 ∨ (1 : ℝ) ≤ 0) ∧
        compute_greeks (-1) 1 1 0 none .CE (some 5) = zeroGreeks) ∧
    compute_greeks 100 100 1 0 none .CE none = zeroGreeks ∧
    ((-2 : ℝ) ≤ 0 ∧ compute_greeks 100 100 1 0 none .PE (some (-2)) = zeroGreeks) ∧
    (resolved_sigma 100 100 1 0 (some (-1)) .CE none ≤ 0 ∧
        compute_greeks 100 100 1 0 (some (-1)) .CE none = zeroGreeks) ∧
    compute_greeks 100 100 1 0 (some 0.3) .CE none =
      compute_greeks 100 100 1 0 (some 0.3) .CE (some 5) := by
  have h1 : ((-1 : ℝ) ≤ 0 ∨ (1 : ℝ) ≤ 0 ∨ (1 : ℝ) ≤ 0) := Or.inl (by norm_num)
  have h3 : (-2 : ℝ) ≤ 0 := by norm_num
  have h4 : resolved_sigma 100 100 1 0 (some (-1)) .CE none ≤ 0 := by
    simp only [resolved_sigma]
    norm_num
  exact ⟨⟨h1, compute_greeks_zero_cases.1 (-1) 1 1 0 none .CE (some 5) h1⟩,
    compute_greeks_zero_cases.2.1 100 100 1 0 .CE,
    ⟨h3, compute_greeks_zero_cases.2.2.1 100 100 1 0 .PE (-2) h3⟩,
    ⟨h4, compute_greeks_zero_cases.2.2.2.1 100 100 1 0 (some (-1)) .CE none h4⟩,
    compute_greeks_zero_cases.2.2.2.2 100 100 1 0 0.3 .CE none (some 5)⟩

/-- Counterexample to C7's "exactly": at `S = 1`, `K = exp 1`, `T = 1`,
`r = 1/2` with the supplied positive volatility `sigma = 1e-5` (so none of
the enumerated zero cases applies), every Greek and the IV itself round to
zero, and `compute_greeks` returns the all-zero result on a valid input. -/
theorem compute_greeks_allzero_counterexample :
    (0 : ℝ) < 1 ∧ (0 : ℝ) < Real.exp 1 ∧ (0 : ℝ) < 1e-5 ∧
      compute_greeks 1 (Real.exp 1) 1 (1 / 2) (some 1e-5) .CE none = zeroGreeks := by
  refine ⟨by norm_num, Real.exp_pos 1, by norm_num, ?_⟩
  have hres : resolved_sigma 1 (Real.exp 1) 1 (1 / 2) (some 1e-5) .CE none = 1e-5 := rfl
  have hrespos : 0 < resolved_sigma 1 (Real.exp 1) 1 (1 / 2) (some 1e-5) .CE none := by
    rw [hres]
    norm_num
  rw [compute_greeks_pos_eq 1 (Real.exp 1) 1 (1 / 2) (some 1e-5) .CE none
    (by norm_num) (Real.exp_pos 1) (by norm_num) hrespos]
  dsimp only
  rw [hres]
  set dv := d1 1 (Real.exp 1) 1 (1 / 2) 1e-5 with hdv
  have hd1_le : dv ≤ -49999 := by
    rw [hdv]
    unfold d1
    rw [Real.sqrt_one, one_div, Real.log_inv, Real.log_exp]
    norm_num
  have hpdf : norm_pdf dv ≤ 1e-30 :=
    norm_pdf_le_tiny (by nlinarith [hd1_le, sq_nonneg (dv + 49999)])
  have hpdf0 : 0 ≤ norm_pdf dv := norm_pdf_nonneg dv
  have hcdf1 : norm_cdf dv ≤ 1e-30 :=
    norm_cdf_le_tiny (by linarith) (by nlinarith [hd1_le, sq_nonneg (dv + 49999)])
  have hcdf10 : 0 ≤ norm_cdf dv := norm_cdf_nonneg dv
  have hd2_le : dv - 1e-5 * Real.sqrt 1 ≤ -49999 := by
    rw [Real.sqrt_one]
    linarith
  have hcdf2 : norm_cdf (dv - 1e-5 * Real.sqrt 1) ≤ 1e-30 :=
    norm_cdf_le_tiny (by linarith)
      (by nlinarith [hd2_le, sq_nonneg (dv - 1e-5 * Real.sqrt 1 + 49999)])
  have hcdf20 : 0 ≤ norm_cdf (dv - 1e-5 * Real.sqrt 1) :=
    norm_cdf_nonneg _
  have hhalf : Real.exp 1 * Real.exp (-(1 / 2) * 1) = Real.exp (1 / 2) := by
    rw [← Real.exp_add]
    norm_num
  have hhalf2 : Real.exp (1 / 2) ≤ 2 := by
    have hsq : Real.exp (1 / 2) * Real.exp (1 / 2) = Real.exp 1 := by
      rw [← Real.exp_add]
      norm_num
    nlinarith [Real.exp_pos (1 / 2), Real.exp_one_lt_d9, sq_nonneg (Real.exp (1 / 2) - 2)]
  unfold zeroGreeks
  have hiv : round_to 2 ((1e-5 : ℝ) * 100) = 0 := by
    apply round_to_eq_zero
    rw [show |(1e-5 : ℝ) * 100| = 1e-3 by rw [abs_of_nonneg] <;> norm_num]
    norm_num
  have hdelta : round_to 4 (norm_cdf dv) = 0 := by
    apply round_to_eq_zero
    rw [abs_of_nonneg hcdf10]
    nlinarith
  have hgamma : round_to 6 (norm_pdf dv / (1 * 1e-5 * Real.sqrt 1)) = 0 := by
    apply round_to_eq_zero
    have hden : (1 : ℝ) * 1e-5 * Real.sqrt 1 = 1e-5 := by
      rw [Real.sqrt_one]
      ring
    rw [hden, abs_of_nonneg (div_nonneg hpdf0 (by norm_num)), div_mul_eq_mul_div,
      div_lt_iff₀ (by norm_num : (0 : ℝ) < 1e-5)]
    linarith [hpdf]
  have htheta : round_to 2 ((-(1 * norm_pdf dv * 1e-5) / (2 * Real.sqrt 1) -
      1 / 2 * Real.exp 1 * Real.exp (-(1 / 2) * 1) * norm_cdf (dv - 1e-5 * Real.sqrt 1)) / 365)
      = 0 := by
    apply round_to_eq_zero
    have hfirst : 0 ≤ 1 * norm_pdf dv * 1e-5 / (2 * Real.sqrt 1) ∧
        1 * norm_pdf dv * 1e-5 / (2 * Real.sqrt 1) ≤ 1e-30 := by
      rw [Real.sqrt_one]
      constructor
      · positivity
      · rw [div_le_iff₀ (by norm_num : (0 : ℝ) < 2 * 1)]
        nlinarith [hpdf, hpdf0]
    have hsecond : 0 ≤ 1 / 2 * Real.exp 1 * Real.exp (-(1 / 2) * 1) *
        norm_cdf (dv - 1e-5 * Real.sqrt 1) ∧
        1 / 2 * Real.exp 1 * Real.exp (-(1 / 2) * 1) *
          norm_cdf (dv - 1e-5 * Real.sqrt 1) ≤ 1e-30 := by
      constructor
      · positivity
      · rw [show (1 : ℝ) / 2 * Real.exp 1 * Real.exp (-(1 / 2) * 1) = Real.exp (1 / 2) / 2 by
          rw [mul_assoc, hhalf]; ring]
        nlinarith [hcdf2, hcdf20, Real.exp_pos (1 / 2)]
    have h2 : -(1 * norm_pdf dv * 1e-5) / (2 * Real.sqrt 1) -
        1 / 2 * Real.exp 1 * Real.exp (-(1 / 2) * 1) * norm_cdf (dv - 1e-5 * Real.sqrt 1) ≤ 0 := by
      have hx : -(1 * norm_pdf dv * 1e-5) / (2 * Real.sqrt 1) =
          -(1 * norm_pdf dv * 1e-5 / (2 * Real.sqrt 1)) := by ring
      rw [hx]
      linarith [hfirst.1, hsecond.1]
    have h1 : -2e-30 ≤ -(1 * norm_pdf dv * 1e-5) / (2 * Real.sqrt 1) -
        1 / 2 * Real.exp 1 * Real.exp (-(1 / 2) * 1) * norm_cdf (dv - 1e-5 * Real.sqrt 1) := by
      have hx : -(1 * norm_pdf dv * 1e-5) / (2 * Real.sqrt 1) =
          -(1 * norm_pdf dv * 1e-5 / (2 * Real.sqrt 1)) := by ring
      rw [hx]
      linarith [hfirst.2, hsecond.2]
    rw [abs_of_nonpos (div_nonpos_of_nonpos_of_nonneg h2 (by norm_num))]
    linarith [h1]
  have hvega : round_to 2 (1 * norm_pdf dv * Real.sqrt 1 / 100) = 0 := by
    apply round_to_eq_zero
    have hv : (1 : ℝ) * norm_pdf dv * Real.sqrt 1 / 100 = norm_pdf dv / 100 := by
      rw [Real.sqrt_one]
      ring
    rw [hv, abs_of_nonneg (div_nonneg hpdf0 (by norm_num))]
    nlinarith [hpdf, hpdf0]
  refine GreeksResult.ext ?_ ?_ ?_ ?_ ?_ <;> dsimp only
  · exact hiv
  · exact hdelta
  · exact hgamma
  · exact htheta
  · exact hvega

/-- The exceptions the arithmetic of `greeks.py` can raise in CPython, the
ones named by its `except (ValueError, OverflowError, ZeroDivisionError)`
clause. -/
inductive PyErr where
  | valueError
  | overflowError
  | zeroDivisionError
deriving DecidableEq, Repr

/-- The largest argument `math.exp` accepts: `log` of the largest double,
about `709.7827`; above it CPython raises `OverflowError`.  (Arguments far
below zero underflow silently to `0.0`, which the real-valued model renders
as a small positive number — no exception either way.) -/
def EXP_OVERFLOW_BOUND : ℝ := 709.782712893384

/-- `math.exp` in the fallible model. -/
noncomputable def mexp (x : ℝ) : Except PyErr ℝ :=
  if x ≤ EXP_OVERFLOW_BOUND then .ok (Real.exp x) else .error .overflowError

/-- `math.log` raises `ValueError` on non-positive arguments. -/
noncomputable def mlog (x : ℝ) : Except PyErr ℝ :=
  if 0 < x then .ok (Real.log x) else .error .valueError

/-- `math.sqrt` raises `ValueError` on negative arguments. -/
noncomputable def msqrt (x : ℝ) : Except PyErr ℝ :=
  if 0 ≤ x then .ok (Real.sqrt x) else .error .valueError

/-- Float division raises `ZeroDivisionError` on a zero divisor. -/
noncomputable def mdiv (a b : ℝ) : Except PyErr ℝ :=
  if b = 0 then .error .zeroDivisionError else .ok (a / b)

/-- Fallible `_d1`. -/
noncomputable def d1E (S K T r sigma : ℝ) : Except PyErr ℝ := do
  let q ← mdiv S K
  let l ← mlog q
  let s ← msqrt T
  mdiv (l + (r + 0.5 * sigma * sigma) * T) (sigma * s)

/-- Fallible `_norm_pdf`. -/
noncomputable def norm_pdfE (x : ℝ) : Except PyErr ℝ := do
  let e ← mexp (-0.5 * x * x)
  let s ← msqrt (2 * Real.pi)
  mdiv e s

/-- Fallible `_norm_cdf`: `math.erf` never raises and the divisor `sqrt 2`
is a positive constant, so this call always succeeds. -/
noncomputable def norm_cdfE (x : ℝ) : Except PyErr ℝ :=
  .ok (norm_cdf x)

/-- Fallible `bs_price`. -/
noncomputable def bs_priceE (S K T r sigma : ℝ) (ot : OptionType) : Except PyErr ℝ :=
  if T ≤ 0 ∨ sigma ≤ 0 ∨ S ≤ 0 ∨ K ≤ 0 then .ok 0
  else do
    let d1v ← d1E S K T r sigma
    let s ← msqrt T
    let d2v := d1v - sigma * s
    let e ← mexp (-r * T)
    match ot with
    | .CE => do
      let c1 ← norm_cdfE d1v
      let c2 ← norm_cdfE d2v
      pure (S * c1 - K * e * c2)
    | .PE => do
      let c1 ← norm_cdfE (-d2v)
      let c2 ← norm_cdfE (-d1v)
      pure (K * e * c1 - S * c2)

/-- Fallible `_bisection_iv`: unlike the Newton-Raphson loop, the source's
bisection has no `try`/`except`, so an exception raised inside it propagates
to the caller of `compute_iv`. -/
noncomputable def bisection_ivE (option_price S K T r : ℝ) (ot : OptionType) :
    ℕ → ℝ → ℝ → Except PyErr ℝ
  | 0, low, high => .ok ((low + high) / 2)
  | n + 1, low, high => do
    let price ← bs_priceE S K T r ((low + high) / 2) ot
    if |price - option_price| < 1e-6 then .ok ((low + high) / 2)
    else if price > option_price then bisection_ivE option_price S K T r ot n low ((low + high) / 2)
    else bisection_ivE option_price S K T r ot n ((low + high) / 2) high

/-- Outcome of one iteration of the Newton-Raphson `for` body: an early
`return sigma` on tolerance, the `break` on flat vega, or the next iterate. -/
inductive NewtonStep where
  | ret (v : ℝ)
  | fallback
  | next (sigma : ℝ)

/-- One fallible iteration of the Newton-Raphson loop body (the contents of
the `try` block at lines 102-122). -/
noncomputable def newton_bodyE (option_price S K T r : ℝ) (ot : OptionType)
    (sigma : ℝ) : Except PyErr NewtonStep := do
  let price ← bs_priceE S K T r sigma ot
  let diff := price - option_price
  if |diff| < 1e-6 then pure (.ret sigma)
  else do
    let d1v ← d1E S K T r sigma
    let pdf ← norm_pdfE d1v
    let s ← msqrt T
    let vega := S * pdf * s
    if vega < 1e-10 then pure .fallback
    else do
      let step ← mdiv diff vega
      let sigma1 := sigma - step
      pure (.next (if sigma1 ≤ 0.001 then 0.001 else if sigma1 > 5.0 then 5.0 else sigma1))

/-- The fallible Newton-Raphson loop: a raised exception in the body is
caught (the `except ... : break` at lines 124-125) and control passes to the
bisection fallback, whose own exceptions are not caught. -/
noncomputable def newton_iterE (option_price S K T r : ℝ) (ot : OptionType) :
    ℕ → ℝ → Except PyErr ℝ
  | 0, _ => bisection_ivE option_price S K T r ot 100 0.001 5.0
  | n + 1, sigma =>
    match newton_bodyE option_price S K T r ot sigma with
    | .error _ => bisection_ivE option_price S K T r ot 100 0.001 5.0
    | .ok (.ret v) => .ok v
    | .ok .fallback => bisection_ivE option_price S K T r ot 100 0.001 5.0
    | .ok (.next s2) => newton_iterE option_price S K T r ot n s2

/-- Fallible `compute_iv`.  Note that the intrinsic-floor computation at
line 90 (`K * math.exp(-r * T)`) runs before the `try` block, so its
`OverflowError` is unprotected. -/
noncomputable def compute_ivE (option_price S K T r : ℝ) (ot : OptionType) :
    Except PyErr ℝ :=
  if option_price ≤ 0 ∨ S ≤ 0 ∨ K ≤ 0 ∨ T ≤ 0 then .ok 0
  else do
    let e ← mexp (-r * T)
    let intrinsic :=
      match ot with
      | .CE => max (S - K * e) 0
      | .PE => max (K * e - S) 0
    if option_price < intrinsic then .ok 0
    else do
      let q ← mdiv (2 * Real.pi) T
      let s ← msqrt q
      let ratio ← mdiv option_price S
      newton_iterE option_price S K T r ot 100 (max (min (s * ratio) 5.0) 0.01)

/-- Successful bind computes. -/
theorem ok_bind {α β : Type} (a : α) (f : α → Except PyErr β) :
    (Except.ok a >>= f) = f a := rfl

/-- `mexp` succeeds below the overflow bound. -/
theorem mexp_ok {x : ℝ} (h : x ≤ EXP_OVERFLOW_BOUND) : mexp x = .ok (Real.exp x) :=
  if_pos h

/-- `mlog` succeeds on positive arguments. -/
theorem mlog_ok {x : ℝ} (h : 0 < x) : mlog x = .ok (Real.log x) :=
  if_pos h

/-- `msqrt` succeeds on nonnegative arguments. -/
theorem msqrt_ok {x : ℝ} (h : 0 ≤ x) : msqrt x = .ok (Real.sqrt x) :=
  if_pos h

/-- `mdiv` succeeds on non-zero divisors. -/
theorem mdiv_ok {a b : ℝ} (h : b ≠ 0) : mdiv a b = .ok (a / b) :=
  if_neg h

/-- The fallible `_d1` agrees with the total one on positive inputs. -/
theorem d1E_ok {S K T r sigma : ℝ} (hS : 0 < S) (hK : 0 < K) (hT : 0 < T)
    (hsig : sigma ≠ 0) : d1E S K T r sigma = .ok (d1 S K T r sigma) := by
  unfold d1E d1
  rw [mdiv_ok (ne_of_gt hK)]
  simp only [ok_bind]
  rw [mlog_ok (div_pos hS hK)]
  simp only [ok_bind]
  rw [msqrt_ok hT.le]
  simp only [ok_bind]
  rw [mdiv_ok (mul_ne_zero hsig (Real.sqrt_ne_zero'.mpr hT))]

/-- The fallible `_norm_pdf` never fails: the exponential argument is
non-positive and the divisor `sqrt(2*pi)` is positive. -/
theorem norm_pdfE_ok (x : ℝ) : norm_pdfE x = .ok (norm_pdf x) := by
  unfold norm_pdfE norm_pdf
  rw [mexp_ok (le_trans (by nlinarith [mul_self_nonneg x])
    (show (0 : ℝ) ≤ EXP_OVERFLOW_BOUND by norm_num [EXP_OVERFLOW_BOUND]))]
  simp only [ok_bind]
  rw [msqrt_ok (by positivity)]
  simp only [ok_bind]
  rw [mdiv_ok (ne_of_gt sqrt_two_pi_pos)]

/-- The fallible `bs_price` agrees with the total one whenever `-r * T` is
below the overflow bound (the only exponential whose argument is not
self-evidently safe). -/
theorem bs_priceE_ok (S K T r sigma : ℝ) (ot : OptionType)
    (hr : -r * T ≤ EXP_OVERFLOW_BOUND) :
    bs_priceE S K T r sigma ot = .ok (bs_price S K T r sigma ot) := by
  unfold bs_priceE bs_price
  by_cases hg : T ≤ 0 ∨ sigma ≤ 0 ∨ S ≤ 0 ∨ K ≤ 0
  · rw [if_pos hg, if_pos hg]
  · rw [if_neg hg, if_neg hg]
    push_neg at hg
    obtain ⟨hT, hsig, hS, hK⟩ := hg
    rw [d1E_ok hS hK hT (ne_of_gt hsig)]
    simp only [ok_bind]
    rw [msqrt_ok hT.le]
    simp only [ok_bind]
    rw [mexp_ok hr]
    simp only [ok_bind]
    cases ot <;> rfl

/-- The fallible bisection agrees with the total one under the same
condition. -/
theorem bisection_ivE_ok (p S K T r : ℝ) (ot : OptionType)
    (hr : -r * T ≤ EXP_OVERFLOW_BOUND) :
    ∀ (n : ℕ) (low high : ℝ),
      bisection_ivE p S K T r ot n low high = .ok (bisection_iv p S K T r ot n low high) := by
  intro n
  induction n with
  | zero => intro low high; rfl
  | succ n ih =>
    intro low high
    simp only [bisection_ivE, bisection_iv]
    rw [bs_priceE_ok S K T r ((low + high) / 2) ot hr]
    simp only [ok_bind]
    split
    · rfl
    · split
      · exact ih low ((low + high) / 2)
      · exact ih ((low + high) / 2) high

/-- The fallible Newton-Raphson loop agrees with the total one on positive
spot, strike, time and iterate, given the overflow-safety of `-r * T`. -/
theorem newton_iterE_ok (p S K T r : ℝ) (ot : OptionType)
    (hr : -r * T ≤ EXP_OVERFLOW_BOUND) (hS : 0 < S) (hK : 0 < K) (hT : 0 < T) :
    ∀ (n : ℕ) (sigma : ℝ), 0 < sigma →
      newton_iterE p S K T r ot n sigma = .ok (newton_iter p S K T r ot n sigma) := by
  intro n
  induction n with
  | zero =>
    intro sigma _
    simp only [newton_iterE, newton_iter]
    exact bisection_ivE_ok p S K T r ot hr 100 0.001 5.0
  | succ n ih =>
    intro sigma hsig
    simp only [newton_iterE, newton_iter]
    unfold newton_bodyE
    rw [bs_priceE_ok S K T r sigma ot hr]
    simp only [ok_bind]
    by_cases h1 : |bs_price S K T r sigma ot - p| < 1e-6
    · rw [if_pos h1, if_pos h1]
      rfl
    · rw [if_neg h1, if_neg h1]
      rw [d1E_ok hS hK hT (ne_of_gt hsig)]
      simp only [ok_bind]
      rw [norm_pdfE_ok]
      simp only [ok_bind]
      rw [msqrt_ok hT.le]
      simp only [ok_bind]
      by_cases h2 : S * norm_pdf (d1 S K T r sigma) * Real.sqrt T < 1e-10
      · rw [if_pos h2, if_pos h2]
        exact bisection_ivE_ok p S K T r ot hr 100 0.001 5.0
      · rw [if_neg h2, if_neg h2]
        rw [mdiv_ok (ne_of_gt (lt_of_lt_of_le (by norm_num) (not_lt.mp h2)))]
        simp only [ok_bind]
        apply ih
        split
        · norm_num
        · split
          · norm_num
          · rename_i hc1 _
            push_neg at hc1
            linarith

/-- C2 as amended: whenever the only unprotected exponential argument
`-r * T` is below the float overflow bound (true of every physically
meaningful rate), `compute_iv` raises no exception and returns the value of
the total real-valued solver — in particular Newton-Raphson non-convergence,
the early vega-abort, and any caught in-loop exception all fall through to
the bisection fallback on `[0.001, 5.0]`, which returns a midpoint after at
most 100 iterations even when the `1e-6` tolerance was not reached.  (For
rates with `-r * T` above the bound the very first `math.exp` call raises,
see the counterexample.) -/
theorem compute_ivE_no_raise (option_price S K T r : ℝ) (ot : OptionType)
    (hr : -r * T ≤ EXP_OVERFLOW_BOUND) :
    compute_ivE option_price S K T r ot =
      Except.ok (compute_iv option_price S K T r ot) := by
  unfold compute_ivE compute_iv
  by_cases hg : option_price ≤ 0 ∨ S ≤ 0 ∨ K ≤ 0 ∨ T ≤ 0
  · rw [if_pos hg, if_pos hg]
  · rw [if_neg hg, if_neg hg]
    push_neg at hg
    obtain ⟨hp, hS, hK, hT⟩ := hg
    rw [mexp_ok hr]
    simp only [ok_bind]
    have hintr : (match ot with
        | OptionType.CE => max (S - K * Real.exp (-r * T)) 0
        | OptionType.PE => max (K * Real.exp (-r * T) - S) 0) =
        intrinsic_floor S K T r ot := by
      cases ot <;> rfl
    rw [hintr]
    by_cases hlt : option_price < intrinsic_floor S K T r ot
    · rw [if_pos hlt, if_pos hlt]
    · rw [if_neg hlt, if_neg hlt]
      rw [mdiv_ok (ne_of_gt hT)]
      simp only [ok_bind]
      rw [msqrt_ok (by positivity)]
      simp only [ok_bind]
      rw [mdiv_ok (ne_of_gt hS)]
      simp only [ok_bind]
      exact newton_iterE_ok option_price S K T r ot hr hS hK hT 100 _
        (lt_of_lt_of_le (by norm_num) (le_max_right _ _))

/-- Witness for C2 at a concrete well-behaved input: the source's own
risk-free rate, half a year to expiry. -/
theorem compute_ivE_no_raise_witness :
    (-(0.0525 : ℝ) * 0.5 ≤ EXP_OVERFLOW_BOUND) ∧
      compute_ivE 5 100 100 0.5 0.0525 .CE =
        Except.ok (compute_iv 5 100 100 0.5 0.0525 .CE) := by
  have h : (-(0.0525 : ℝ) * 0.5 ≤ EXP_OVERFLOW_BOUND) := by
    norm_num [EXP_OVERFLOW_BOUND]
  exact ⟨h, compute_ivE_no_raise 5 100 100 0.5 0.0525 .CE h⟩

/-- Counterexample to C2 as stated: at the real rate `r = -1000` (with
`marketPrice = S = K = T = 1`), the unprotected `math.exp(-r * T)` in the
intrinsic-floor computation (line 90, outside the `try` block) overflows, so
`compute_iv` raises `OverflowError` instead of returning a volatility. -/
theorem compute_ivE_overflow_counterexample :
    compute_ivE 1 1 1 1 (-1000) .CE = Except.error PyErr.overflowError := by
  unfold compute_ivE
  rw [if_neg (by norm_num : ¬((1 : ℝ) ≤ 0 ∨ (1 : ℝ) ≤ 0 ∨ (1 : ℝ) ≤ 0 ∨ (1 : ℝ) ≤ 0))]
  rw [show mexp (-(-1000 : ℝ) * 1) = Except.error PyErr.overflowError by
    unfold mexp
    rw [if_neg]
    norm_num [EXP_OVERFLOW_BOUND]]
  rfl
